import Mathlib

/-!
Verification development for the request-admission and bounded-concurrency
engine of a conversational relay bot (TypeScript sources: `bot.ts`,
`services/openRouterService.ts` (OpenRouterService and RateLimitService),
`services/messageService.ts`, `imageProcessor.ts`,
`nonBlockingImageHandler.ts`).

Strings are modelled as `List Char`; for the texts considered here (BMP code
points only) JavaScript's UTF-16 `length` coincides with the list length.
Pure in-memory caches (`responseCache`, `splitCache`) store exactly the value
the cached computation would produce, so the cached functions are modelled by
the underlying pure computation.
-/

set_option maxRecDepth 20000

namespace Bot

/-- Abbreviation for our model of JavaScript strings. -/
abbrev Str := List Char

/-- The character class matched by JavaScript's `\s` (and removed by
`String.prototype.trim`): whitespace and line terminators, given by code
point. -/
def isJsSpace (c : Char) : Bool :=
  c.toNat = 9 || c.toNat = 10 || c.toNat = 11 || c.toNat = 12 || c.toNat = 13 ||
  c.toNat = 32 || c.toNat = 0xa0 || c.toNat = 0x1680 ||
  (0x2000 ≤ c.toNat && c.toNat ≤ 0x200a) ||
  c.toNat = 0x2028 || c.toNat = 0x2029 || c.toNat = 0x202f || c.toNat = 0x205f ||
  c.toNat = 0x3000 || c.toNat = 0xfeff

/-- JavaScript `String.prototype.trim`: strip `isJsSpace` characters from both
ends. -/
def jsTrim (l : Str) : Str :=
  ((l.dropWhile isJsSpace).reverse.dropWhile isJsSpace).reverse

namespace MessageService

/-- Page size limit: `MAX_PAGE_LENGTH = 3500` (messageService.ts). -/
def MAX_PAGE_LENGTH : Nat := 3500

/-- The ECMAScript `LineTerminator` characters, after any of which a
multiline `^` matches: LF, CR, U+2028 (LS) and U+2029 (PS). -/
def isLineTerm (c : Char) : Bool :=
  c == '\n' || c == '\r' || c.toNat = 0x2028 || c.toNat = 0x2029

/-- `text.replace(/^✨\s*/gm, '')`: at each line start (string start or the
position after a `LineTerminator` — `'\n'`, `'\r'`, U+2028 or U+2029), a `✨`
and the maximal following run of `\s` characters are removed.  The scan
continues after the removed run; the next position counts as a line start iff
the last removed character was a line terminator (matching JavaScript's
left-to-right global scan of the original string). -/
def removeSparkles (atLineStart : Bool) : Str → Str
  | [] => []
  | c :: rest =>
    if atLineStart ∧ c = '✨' then
      removeSparkles
        (match (rest.takeWhile isJsSpace).getLast? with
          | some d => isLineTerm d
          | none => false)
        (rest.dropWhile isJsSpace)
    else
      c :: removeSparkles (isLineTerm c) rest
termination_by l => l.length
decreasing_by
  · exact Nat.lt_succ_of_le (List.dropWhile_sublist isJsSpace).length_le
  · exact Nat.lt_succ_self _

/-- `text.replace(/\n{3,}/g, '\n\n')`: every maximal run of three or more
newlines collapses to exactly two. -/
def collapseNewlines : Str → Str
  | [] => []
  | c :: rest =>
    if c = '\n' then
      (if 3 ≤ (rest.takeWhile (fun d => d = '\n')).length + 1 then ['\n', '\n']
       else List.replicate ((rest.takeWhile (fun d => d = '\n')).length + 1) '\n') ++
      collapseNewlines (rest.dropWhile (fun d => d = '\n'))
    else
      c :: collapseNewlines rest
termination_by l => l.length
decreasing_by
  · exact Nat.lt_succ_of_le (List.dropWhile_sublist _).length_le
  · exact Nat.lt_succ_self _

/-- `MessageService.stripDecor` (messageService.ts 48–57): remove line-leading
`✨` markers, delete `━` separator runs, collapse 3+ newlines to a blank line,
then trim. -/
def stripDecor (text : Str) : Str :=
  jsTrim (collapseNewlines ((removeSparkles true text).filter (fun c => c ≠ '━')))

/-- `MessageService.formatResponse` (messageService.ts 28–43): trim, then
`stripDecor`.  The `responseCache` is semantically transparent and omitted. -/
def formatResponse (text : Str) : Str :=
  stripDecor (jsTrim text)

/-- `text.split('\n\n')` scanning left to right for non-overlapping
occurrences of the separator. -/
def splitOnNN : Str → List Str
  | [] => [[]]
  | [c] => [[c]]
  | c1 :: c2 :: rest =>
    if c1 = '\n' ∧ c2 = '\n' then [] :: splitOnNN rest
    else
      match splitOnNN (c2 :: rest) with
      | [] => [[c1]]
      | h :: t => (c1 :: h) :: t

/-- `paragraph.split(' ')`. -/
def splitSpace : Str → List Str
  | [] => [[]]
  | c :: rest =>
    if c = ' ' then [] :: splitSpace rest
    else
      match splitSpace rest with
      | [] => [[c]]
      | h :: t => (c :: h) :: t

/-- The word-packing loop of `splitMessage` (messageService.ts 92–103),
entered when a single paragraph exceeds `MAX_PAGE_LENGTH`. -/
def packWords (maxLen : Nat) : List Str → Str → List Str → List Str
  | [], cur, chunks => if cur.isEmpty then chunks else chunks ++ [jsTrim cur]
  | w :: rest, cur, chunks =>
    if cur.length + w.length + 1 ≤ maxLen then
      packWords maxLen rest (if cur.isEmpty then w else cur ++ ' ' :: w) chunks
    else
      packWords maxLen rest w (if cur.isEmpty then chunks else chunks ++ [jsTrim cur])

/-- The paragraph-packing loop of `splitMessage` (messageService.ts 81–112). -/
def packParas (maxLen : Nat) : List Str → Str → List Str → List Str
  | [], cur, chunks => if cur.isEmpty then chunks else chunks ++ [jsTrim cur]
  | p :: rest, cur, chunks =>
    if cur.length + p.length + 2 ≤ maxLen then
      packParas maxLen rest (if cur.isEmpty then p else cur ++ '\n' :: '\n' :: p) chunks
    else
      let chunks1 := if cur.isEmpty then chunks else chunks ++ [jsTrim cur]
      if maxLen < p.length then
        packParas maxLen rest [] (packWords maxLen (splitSpace p) [] chunks1)
      else
        packParas maxLen rest p chunks1

/-- `MessageService.splitMessage` (messageService.ts 62–120).  A text within
the page limit is returned as a single page; otherwise paragraphs are packed
greedily, with a word-level fallback for oversized paragraphs.  The
`splitCache` is semantically transparent and omitted. -/
def splitMessage (text : Str) : List Str :=
  if text.length ≤ MAX_PAGE_LENGTH then [text]
  else packParas MAX_PAGE_LENGTH (splitOnNN text) [] []

/-! ### Claim C7 -/

/-- Check that no line of `l` (scanning like the `/^✨\s*/gm` pass, with a
line start after any `LineTerminator`) starts with a `✨`. -/
def noLineSpark : Bool → Str → Bool
  | _, [] => true
  | atLS, c :: rest => (!(atLS && decide (c = '✨'))) && noLineSpark (isLineTerm c) rest

theorem removeSparkles_id : ∀ (l : Str) (b : Bool),
    noLineSpark b l = true → removeSparkles b l = l := by
  intro l
  induction l with
  | nil => intro b _; rw [removeSparkles]
  | cons c rest ih =>
    intro b h
    simp only [noLineSpark, Bool.and_eq_true, Bool.not_eq_true', Bool.and_eq_false_imp,
      decide_eq_true_eq] at h
    rw [removeSparkles.eq_2]
    rw [if_neg (by
      rintro ⟨hb, hcs⟩
      exact absurd hcs (by simpa using h.1 hb))]
    rw [ih _ h.2]

theorem dropWhile_head_not {p : Char → Bool} : ∀ (l : Str) (c : Char),
    (l.dropWhile p).head? = some c → p c = false := by
  intro l
  induction l with
  | nil => intro c hc; simp at hc
  | cons a rest ih =>
    intro c hc
    by_cases hp : p a
    · rw [List.dropWhile_cons_of_pos hp] at hc
      exact ih c hc
    · rw [List.dropWhile_cons_of_neg hp] at hc
      simp only [List.head?_cons, Option.some.injEq] at hc
      subst hc
      exact Bool.eq_false_iff.mpr hp

theorem dropWhile_eq_self_of_head {p : Char → Bool} (l : Str)
    (h : ∀ c, l.head? = some c → p c = false) : l.dropWhile p = l := by
  cases l with
  | nil => rfl
  | cons a rest =>
    exact List.dropWhile_cons_of_neg (by simp [h a rfl])

theorem jsTrim_eq_self (l : Str)
    (h1 : ∀ c, l.head? = some c → isJsSpace c = false)
    (h2 : ∀ c, l.getLast? = some c → isJsSpace c = false) : jsTrim l = l := by
  unfold jsTrim
  rw [dropWhile_eq_self_of_head l h1]
  rw [dropWhile_eq_self_of_head l.reverse (by
    intro c hc
    exact h2 c (by rwa [List.head?_reverse] at hc))]
  exact List.reverse_reverse l

theorem jsTrim_getLast_not (l : Str) (c : Char)
    (h : (jsTrim l).getLast? = some c) : isJsSpace c = false := by
  unfold jsTrim at h
  rw [List.getLast?_reverse] at h
  exact dropWhile_head_not _ c h

theorem jsTrim_prefix_dropWhile (l : Str) : jsTrim l <+: l.dropWhile isJsSpace := by
  have h : ((l.dropWhile isJsSpace).reverse.dropWhile isJsSpace).reverse <+:
      (l.dropWhile isJsSpace).reverse.reverse :=
    List.reverse_prefix.mpr (List.dropWhile_suffix _)
  rw [List.reverse_reverse] at h
  exact h

theorem jsTrim_head_not (l : Str) (c : Char)
    (h : (jsTrim l).head? = some c) : isJsSpace c = false := by
  obtain ⟨t, ht⟩ := jsTrim_prefix_dropWhile l
  cases hj : jsTrim l with
  | nil => rw [hj] at h; simp at h
  | cons a w =>
    rw [hj] at h ht
    simp only [List.head?_cons, Option.some.injEq] at h
    subst h
    exact dropWhile_head_not l a (by rw [← ht]; simp)

theorem jsTrim_idem (l : Str) : jsTrim (jsTrim l) = jsTrim l :=
  jsTrim_eq_self _ (jsTrim_head_not l) (jsTrim_getLast_not l)

theorem jsTrim_infix_mono (l : Str) : jsTrim l <:+: l :=
  (jsTrim_prefix_dropWhile l).isInfix.trans (List.dropWhile_suffix _).isInfix

theorem collapse_subset (l : Str) : ∀ c, c ∈ collapseNewlines l → c ∈ l := by
  induction l using collapseNewlines.induct with
  | case1 => simp [collapseNewlines]
  | case2 rest ih =>
    intro d hd
    rw [collapseNewlines, if_pos rfl] at hd
    rcases List.mem_append.mp hd with h | h
    · have hdn : d = '\n' := by
        split at h
        · simpa using h
        · exact List.eq_of_mem_replicate h
      simp [hdn]
    · exact List.mem_cons_of_mem _ ((List.dropWhile_subset _) (ih d h))
  | case3 c rest hc ih =>
    intro d hd
    rw [collapseNewlines, if_neg hc] at hd
    rcases List.mem_cons.mp hd with h | h
    · simp [h]
    · exact List.mem_cons_of_mem c (ih d h)

theorem collapse_no_nl_id (l : Str) (h : ∀ c ∈ l, c ≠ '\n') :
    collapseNewlines l = l := by
  induction l with
  | nil => simp [collapseNewlines]
  | cons c rest ih =>
    rw [collapseNewlines, if_neg (h c (by simp))]
    rw [ih (fun d hd => h d (List.mem_cons_of_mem c hd))]

/-- No three consecutive newlines occur. -/
def NoTriple (l : Str) : Prop := ¬ ('\n' :: '\n' :: '\n' :: [] : Str) <:+: l

theorem noTriple_mono {l m : Str} (h : m <:+: l) (hl : NoTriple l) : NoTriple m :=
  fun hc => hl (hc.trans h)

theorem noTriple_cons {c : Char} {l : Str} (hc : c ≠ '\n') (hl : NoTriple l) :
    NoTriple (c :: l) := by
  rintro ⟨s, t, heq⟩
  cases s with
  | nil =>
    simp only [List.nil_append, List.cons_append, List.cons.injEq] at heq
    exact hc heq.1.symm
  | cons a s =>
    simp only [List.cons_append, List.cons.injEq] at heq
    exact hl ⟨s, t, heq.2⟩

theorem collapse_cons_ne (c : Char) (l : Str) (h : c ≠ '\n') :
    collapseNewlines (c :: l) = c :: collapseNewlines l := by
  rw [collapseNewlines, if_neg h]

theorem collapse_head_not_nl (l : Str) :
    ∀ c, (collapseNewlines (l.dropWhile (fun d => d = '\n'))).head? = some c →
      c ≠ '\n' := by
  intro c hc
  cases hd : l.dropWhile (fun d => d = '\n') with
  | nil => rw [hd] at hc; simp [collapseNewlines] at hc
  | cons a w =>
    have ha : ¬ (a = '\n') := by
      have := dropWhile_head_not (p := fun d => decide (d = '\n')) l a (by rw [hd]; rfl)
      simpa using this
    rw [hd, collapse_cons_ne a w ha] at hc
    simp only [List.head?_cons, Option.some.injEq] at hc
    subst hc
    exact ha

theorem triple_not_infix_append (k : Nat) (hk : k ≤ 2) (out : Str)
    (hhead : ∀ c, out.head? = some c → c ≠ '\n')
    (hni : NoTriple out) :
    NoTriple (List.replicate k '\n' ++ out) := by
  rintro ⟨s, t, heq⟩
  rw [List.append_assoc] at heq
  rcases List.append_eq_append_iff.mp heq with ⟨a, ha1, ha2⟩ | ⟨a, ha1, ha2⟩
  · -- List.replicate k '\n' = s ++ a, and a ++ out = nnn ++ t
    have hlen : a.length ≤ 2 := by
      have := congrArg List.length ha1
      simp only [List.length_replicate, List.length_append] at this
      omega
    have hout : out = List.drop a.length ('\n' :: '\n' :: '\n' :: t) := by
      have hd2 := congrArg (List.drop a.length) ha2
      rw [List.drop_left] at hd2
      exact hd2.symm
    have hhd : out.head? = some '\n' := by
      rw [hout]
      rcases (by omega : a.length = 0 ∨ a.length = 1 ∨ a.length = 2) with h | h | h <;>
        rw [h] <;> rfl
    exact hhead '\n' hhd rfl
  · -- s = replicate ++ a, out = a ++ nnn ++ t
    refine hni ⟨a, t, ?_⟩
    rw [List.append_assoc]
    exact ha2.symm

theorem collapse_noTriple (l : Str) : NoTriple (collapseNewlines l) := by
  induction l using collapseNewlines.induct with
  | case1 => rintro ⟨s, t, heq⟩; simp [collapseNewlines] at heq
  | case2 rest ih =>
    rw [collapseNewlines, if_pos rfl]
    have hhead := collapse_head_not_nl rest
    split
    · exact triple_not_infix_append 2 (by norm_num) _ hhead ih
    next hcond =>
      have hrun : (rest.takeWhile (fun d => d = '\n')).length + 1 ≤ 2 := by omega
      exact triple_not_infix_append _ (by omega) _ hhead ih
  | case3 c rest hc ih =>
    rw [collapse_cons_ne c rest hc]
    exact noTriple_cons hc ih

theorem collapse_id : ∀ (l : Str), NoTriple l → collapseNewlines l = l := by
  intro l
  induction l using collapseNewlines.induct with
  | case1 => intro _; simp [collapseNewlines]
  | case2 rest ih =>
    intro hnt
    have hallnl : ∀ b ∈ rest.takeWhile (fun d => d = '\n'), b = '\n' := by
      intro b hb
      simpa using List.mem_takeWhile_imp hb
    have hrun : (rest.takeWhile (fun d => d = '\n')).length ≤ 1 := by
      by_contra hcon
      obtain ⟨t0, ht0⟩ := List.takeWhile_prefix (l := rest) (fun d => decide (d = '\n'))
      obtain ⟨c1, c2, run2, hshape⟩ : ∃ c1 c2 run2,
          rest.takeWhile (fun d => d = '\n') = c1 :: c2 :: run2 := by
        rcases hx : rest.takeWhile (fun d => d = '\n') with _ | ⟨c1, _ | ⟨c2, run2⟩⟩ <;>
          rw [hx] at hcon
        · simp at hcon
        · simp at hcon
        · exact ⟨_, _, _, rfl⟩
      have hc1 : c1 = '\n' := hallnl c1 (by rw [hshape]; simp)
      have hc2 : c2 = '\n' := hallnl c2 (by rw [hshape]; simp)
      refine hnt ⟨[], run2 ++ t0, ?_⟩
      rw [List.nil_append]
      have hrest : rest = '\n' :: '\n' :: run2 ++ t0 := by
        rw [← ht0, hshape, hc1, hc2]
      rw [hrest]
      simp
    rw [collapseNewlines, if_pos rfl, if_neg (by omega)]

    have hsuf : rest.dropWhile (fun d => d = '\n') <:+ '\n' :: rest :=
      (List.dropWhile_suffix _).trans (List.suffix_cons '\n' rest)
    rw [ih (noTriple_mono hsuf.isInfix hnt)]
    rw [List.replicate_succ]
    rw [List.eq_replicate_of_mem hallnl |>.symm]
    rw [List.cons_append, List.takeWhile_append_dropWhile]
  | case3 c rest hc ih =>
    intro hnt
    rw [collapse_cons_ne c rest hc]
    rw [ih (noTriple_mono ⟨[c], [], by simp⟩ hnt)]

/-- Executable check that no three consecutive newlines occur. -/
def noTripleB : Str → Bool
  | [] => true
  | c1 :: rest =>
    (match rest with
     | c2 :: c3 :: _ =>
       !(decide (c1 = '\n') && decide (c2 = '\n') && decide (c3 = '\n'))
     | _ => true) && noTripleB rest

theorem noTripleB_cons_false {c : Char} {l : Str} (h : noTripleB l = false) :
    noTripleB (c :: l) = false := by
  simp only [noTripleB, h, Bool.and_false]

theorem noTripleB_sound : ∀ (l : Str), noTripleB l = true → NoTriple l := by
  suffices h : ∀ (s t : List Char),
      noTripleB (s ++ '\n' :: '\n' :: '\n' :: t) = false by
    intro l hb
    rintro ⟨s, t, heq⟩
    rw [← heq] at hb
    rw [show s ++ ['\n', '\n', '\n'] ++ t = s ++ '\n' :: '\n' :: '\n' :: t by simp] at hb
    rw [h s t] at hb
    exact absurd hb (by simp)
  intro s
  induction s with
  | nil =>
    intro t
    simp [noTripleB]
  | cons c s ih =>
    intro t
    exact noTripleB_cons_false (ih t)

/-- Executable check that `stripDecor` would leave a text unchanged: no
line-leading `✨`, no `━`, no triple newline, and no surrounding
whitespace. -/
def cleanText (l : Str) : Bool :=
  noLineSpark true l && l.all (fun c => decide (c ≠ '━')) && noTripleB l &&
  (match l.head? with | some c => !isJsSpace c | none => true) &&
  (match l.getLast? with | some c => !isJsSpace c | none => true)

theorem formatResponse_id (l : Str) (h : cleanText l = true) : formatResponse l = l := by
  simp only [cleanText, Bool.and_eq_true] at h
  obtain ⟨⟨⟨⟨h1, h2⟩, h3⟩, h4⟩, h5⟩ := h
  have hhead : ∀ c, l.head? = some c → isJsSpace c = false := by
    intro c hc
    rw [hc] at h4
    simpa using h4
  have hlast : ∀ c, l.getLast? = some c → isJsSpace c = false := by
    intro c hc
    rw [hc] at h5
    simpa using h5
  have hfil : l.filter (fun c => c ≠ '━') = l := by
    rw [List.filter_eq_self]
    intro c hc
    simpa using List.all_eq_true.mp h2 c hc
  rw [formatResponse, stripDecor, jsTrim_eq_self l hhead hlast,
    removeSparkles_id l true h1, hfil, collapse_id l (noTripleB_sound l h3),
    jsTrim_eq_self l hhead hlast]

theorem jsTrim_id_of_ends (l : Str)
    (h : ((match l.head? with | some c => !isJsSpace c | none => true) &&
          (match l.getLast? with | some c => !isJsSpace c | none => true)) = true) :
    jsTrim l = l := by
  rw [Bool.and_eq_true] at h
  apply jsTrim_eq_self l
  · intro c hc
    have := h.1
    rw [hc] at this
    simpa using this
  · intro c hc
    have := h.2
    rw [hc] at this
    simpa using this

theorem formatResponse_strip1 :
    formatResponse ['━', '✨', 'h', 'i'] = ['✨', 'h', 'i'] := by
  rw [formatResponse, stripDecor]
  rw [jsTrim_id_of_ends ['━', '✨', 'h', 'i'] (by decide)]
  rw [removeSparkles_id ['━', '✨', 'h', 'i'] true (by decide)]
  rw [show (['━', '✨', 'h', 'i'] : Str).filter (fun c => c ≠ '━') = ['✨', 'h', 'i']
    from by decide]
  rw [collapse_id ['✨', 'h', 'i'] (noTripleB_sound _ (by decide))]
  exact jsTrim_id_of_ends ['✨', 'h', 'i'] (by decide)

theorem formatResponse_strip2 :
    formatResponse ['✨', 'h', 'i'] = ['h', 'i'] := by
  rw [formatResponse, stripDecor]
  rw [jsTrim_id_of_ends ['✨', 'h', 'i'] (by decide)]
  have hrs : removeSparkles true ['✨', 'h', 'i'] = ['h', 'i'] := by
    rw [removeSparkles.eq_2, if_pos (by decide)]
    rw [show List.takeWhile isJsSpace ['h', 'i'] = [] from by decide]
    rw [show List.dropWhile isJsSpace ['h', 'i'] = ['h', 'i'] from by decide]
    exact removeSparkles_id ['h', 'i'] false (by decide)
  rw [hrs]
  rw [show (['h', 'i'] : Str).filter (fun c => c ≠ '━') = ['h', 'i'] from by decide]
  rw [collapse_id ['h', 'i'] (noTripleB_sound _ (by decide))]
  exact jsTrim_id_of_ends ['h', 'i'] (by decide)

theorem formatResponse_cr_strip1 :
    formatResponse ['a', '\r', '━', '✨', 'x'] = ['a', '\r', '✨', 'x'] := by
  rw [formatResponse, stripDecor]
  rw [jsTrim_id_of_ends ['a', '\r', '━', '✨', 'x'] (by decide)]
  rw [removeSparkles_id ['a', '\r', '━', '✨', 'x'] true (by decide)]
  rw [show (['a', '\r', '━', '✨', 'x'] : Str).filter (fun c => c ≠ '━') =
    ['a', '\r', '✨', 'x'] from by decide]
  rw [collapse_id ['a', '\r', '✨', 'x'] (noTripleB_sound _ (by decide))]
  exact jsTrim_id_of_ends ['a', '\r', '✨', 'x'] (by decide)

theorem formatResponse_cr_strip2 :
    formatResponse ['a', '\r', '✨', 'x'] = ['a', '\r', 'x'] := by
  rw [formatResponse, stripDecor]
  rw [jsTrim_id_of_ends ['a', '\r', '✨', 'x'] (by decide)]
  have hrs : removeSparkles true ['a', '\r', '✨', 'x'] = ['a', '\r', 'x'] := by
    rw [removeSparkles.eq_2, if_neg (by decide)]
    rw [show isLineTerm 'a' = false from by decide]
    rw [removeSparkles.eq_2, if_neg (by decide)]
    rw [show isLineTerm '\r' = true from by decide]
    rw [removeSparkles.eq_2, if_pos (by decide)]
    rw [show List.takeWhile isJsSpace ['x'] = ([] : Str) from by decide]
    rw [show List.dropWhile isJsSpace ['x'] = (['x'] : Str) from by decide]
    show 'a' :: '\r' :: removeSparkles false ['x'] = ['a', '\r', 'x']
    rw [removeSparkles_id ['x'] false (by decide)]
  rw [hrs]
  rw [show (['a', '\r', 'x'] : Str).filter (fun c => c ≠ '━') = ['a', '\r', 'x']
    from by decide]
  rw [collapse_id ['a', '\r', 'x'] (noTripleB_sound _ (by decide))]
  exact jsTrim_id_of_ends ['a', '\r', 'x'] (by decide)

/-- A `✨` re-exposed after a carriage return is a line-leading sparkle: the
hypothesis of the amended C7 statement correctly excludes such texts. -/
theorem noLineSpark_cr : noLineSpark true ['a', '\r', '✨', 'x'] = false := by
  decide

/-- `formatResponse` is likewise not idempotent when the re-exposed sparkle
sits after a `'\r'` line terminator rather than a `'\n'`. -/
theorem formatResponse_cr_not_idem :
    formatResponse (formatResponse ['a', '\r', '━', '✨', 'x']) ≠
      formatResponse ['a', '\r', '━', '✨', 'x'] := by
  rw [formatResponse_cr_strip1, formatResponse_cr_strip2]
  decide

/-- The property claimed: `formatResponse` is idempotent on every input. -/
def C7Holds : Prop :=
  ∀ t : Str, formatResponse (formatResponse t) = formatResponse t

/-- Claim C7: `formatResponse` applied twice equals `formatResponse` applied
once — REFUTED.  On `"━✨hi"`, the first pass deletes the `━` (exposing a
line-leading `✨` that the earlier sparkle pass has already gone past) and
returns `"✨hi"`; the second pass then strips the `✨`, returning `"hi"`. -/
theorem C7_counterexample : ¬ C7Holds := by
  intro h
  have h2 := h ['━', '✨', 'h', 'i']
  rw [formatResponse_strip1, formatResponse_strip2] at h2
  exact absurd h2 (by decide)

/-- Claim C7 (amended): `formatResponse` is idempotent on every text whose
first application leaves no line-leading `✨` (the `━`-deletion and
newline-collapse passes always reach a fixed point after one application;
only a `✨` re-exposed at a line start can make a second pass differ). -/
theorem C7_theorem (t : Str) (h : noLineSpark true (formatResponse t) = true) :
    formatResponse (formatResponse t) = formatResponse t := by
  have hno : '━' ∉ formatResponse t := by
    intro hc
    have h1 : '━' ∈ collapseNewlines
        ((removeSparkles true (jsTrim t)).filter (fun c => c ≠ '━')) :=
      (jsTrim_infix_mono _).sublist.subset hc
    have h2 := collapse_subset _ _ h1
    have h3 := List.mem_filter.mp h2
    simp at h3
  have hfil : (formatResponse t).filter (fun c => c ≠ '━') = formatResponse t := by
    rw [List.filter_eq_self]
    intro c hc
    simp only [ne_eq, decide_not, Bool.not_eq_true', decide_eq_false_iff_not, not_not]
    intro hcc
    rw [hcc] at hc
    exact hno hc
  have hnt : NoTriple (formatResponse t) :=
    noTriple_mono (jsTrim_infix_mono _) (collapse_noTriple _)
  show jsTrim (collapseNewlines
    ((removeSparkles true (jsTrim (formatResponse t))).filter (fun c => c ≠ '━'))) =
    formatResponse t
  rw [show jsTrim (formatResponse t) = formatResponse t from jsTrim_idem _]
  rw [removeSparkles_id _ true h, hfil, collapse_id _ hnt]
  exact jsTrim_idem _

/-- Witness for C7 (amended) on the clean text `"ok"`. -/
theorem C7_witness :
    noLineSpark true (formatResponse ['o', 'k']) = true ∧
    formatResponse (formatResponse ['o', 'k']) = formatResponse ['o', 'k'] := by
  have hid : formatResponse ['o', 'k'] = ['o', 'k'] := formatResponse_id _ (by decide)
  have hns : noLineSpark true (formatResponse ['o', 'k']) = true := by
    rw [hid]
    decide
  exact ⟨hns, C7_theorem ['o', 'k'] hns⟩

end MessageService

/-! ## RateLimitService (openRouterService.ts / rateLimitService 214–505) -/

namespace RateLimitService

/-- The character for a decimal digit. -/
def digitChar (d : Nat) : Char := Char.ofNat (48 + d)

/-- Fuel-driven decimal conversion; with fuel at least `n` it produces the
decimal digits of `n`, most significant first. -/
def natDigitsAux : Nat → Nat → List Char
  | 0, n => [digitChar (n % 10)]
  | fuel + 1, n =>
    if n < 10 then [digitChar n] else natDigitsAux fuel (n / 10) ++ [digitChar (n % 10)]

/-- Decimal digits of a natural number, most significant first; models the
JavaScript template-literal rendering `${userId}` of a nonnegative integer. -/
def natDigits (n : Nat) : List Char := natDigitsAux n n

/-- The map key `` `${userId}:${action}` `` used by `checkLimit` and
`resetUserLimits`. -/
def mkKey (userId : Nat) (action : Str) : Str :=
  natDigits userId ++ ':' :: action

/-- `RateLimitRule` (rateLimitService): `blockDurationMs` is optional. -/
structure RateLimitRule where
  maxRequests : Nat
  windowMs : Nat
  blockDurationMs : Option Nat := none
deriving DecidableEq, Repr

/-- `UserLimitInfo` (rateLimitService). -/
structure UserLimitInfo where
  count : Nat
  resetTime : Nat
  blockedUntil : Option Nat := none
  violations : Nat
deriving DecidableEq, Repr

/-- The record returned by `checkLimit` (the human-readable `reason` string is
not modelled). -/
structure CheckResult where
  allowed : Bool
  remaining : Nat
  resetTime : Nat
  blockedUntil : Option Nat := none
deriving DecidableEq, Repr

/-- The default rule table (rateLimitService 238–263). -/
def defaultRules : List (Str × RateLimitRule) :=
  [("text_message".toList, ⟨30, 60000, some 300000⟩),
   ("image_processing".toList, ⟨10, 300000, some 600000⟩),
   ("settings_change".toList, ⟨5, 60000, some 60000⟩),
   ("command".toList, ⟨20, 60000, none⟩),
   ("global".toList, ⟨50, 3600000, some 1800000⟩)]

/-- The mutable state of a `RateLimitService` instance: the `limits` map
(modelled as an insertion-ordered association list, like a JS `Map`), the VIP
set and the rule table.  The declared-but-never-accessed `globalLimits` map is
omitted. -/
structure RateLimitState where
  limits : List (Str × UserLimitInfo) := []
  vipUsers : List Nat := []
  rules : List (Str × RateLimitRule) := defaultRules
deriving DecidableEq, Repr

/-- `this.rules[action] || this.rules.global`: an absent action falls back to
the global rule. -/
def lookupRule (rules : List (Str × RateLimitRule)) (action : Str) : Option RateLimitRule :=
  match List.lookup action rules with
  | some r => some r
  | none => List.lookup "global".toList rules

/-- `Map.set` semantics: replace the value at an existing key in place,
otherwise append. -/
def setAssoc {β : Type} (k : Str) (v : β) : List (Str × β) → List (Str × β)
  | [] => [(k, v)]
  | (k2, v2) :: rest => if k2 = k then (k, v) :: rest else (k2, v2) :: setAssoc k v rest

/-- JavaScript truthiness of an optional number (`undefined` and `0` are
falsy). -/
def isTruthy : Option Nat → Bool
  | some n => decide (n ≠ 0)
  | none => false

/-- `userLimit?.blockedUntil && now < userLimit.blockedUntil`. -/
def blockedActive (ul : UserLimitInfo) (now : Nat) : Bool :=
  match ul.blockedUntil with
  | some b => decide (b ≠ 0) && decide (now < b)
  | none => false

/-- The count test of `checkLimit` (rateLimitService 302–331), applied to the
(possibly freshly reset) window entry.  The JS intermediate `limits.set` in the
fresh-window branch is overwritten by the final `set` and hence absorbed. -/
def checkCount (rule : RateLimitRule) (key : Str) (ul : UserLimitInfo) (now : Nat)
    (st : RateLimitState) : CheckResult × RateLimitState :=
  if rule.maxRequests ≤ ul.count then
    let ul2 : UserLimitInfo :=
      { ul with violations := ul.violations + 1,
                blockedUntil := if isTruthy rule.blockDurationMs
                                then some (now + rule.blockDurationMs.getD 0)
                                else ul.blockedUntil }
    (⟨false, 0, ul2.resetTime, ul2.blockedUntil⟩,
     { st with limits := setAssoc key ul2 st.limits })
  else
    let ul2 : UserLimitInfo := { ul with count := ul.count + 1 }
    (⟨true, rule.maxRequests - ul2.count, ul2.resetTime, none⟩,
     { st with limits := setAssoc key ul2 st.limits })

/-- `RateLimitService.checkLimit` (rateLimitService 268–331).  Returns `none`
only if even the global rule is missing from the rule table (where the JS
would crash dereferencing `undefined`). -/
def checkLimit (st : RateLimitState) (userId : Nat) (action : Str) (now : Nat) :
    Option (CheckResult × RateLimitState) :=
  match lookupRule st.rules action with
  | none => none
  | some rule =>
    let key := mkKey userId action
    match List.lookup key st.limits with
    | some ul0 =>
      if blockedActive ul0 now then
        some (⟨false, 0, ul0.resetTime, ul0.blockedUntil⟩, st)
      else
        let ul1 : UserLimitInfo :=
          if ul0.resetTime < now then
            { count := 0, resetTime := now + rule.windowMs, blockedUntil := none,
              violations := ul0.violations }
          else ul0
        some (checkCount rule key ul1 now st)
    | none =>
      let ul1 : UserLimitInfo :=
        { count := 0, resetTime := now + rule.windowMs, blockedUntil := none, violations := 0 }
      some (checkCount rule key ul1 now st)

/-- `RateLimitService.resetUserLimits` (rateLimitService 365–376): with an
action, delete that one key; without, delete every key that starts with
`` `${userId}:` ``. -/
def resetUserLimits (st : RateLimitState) (userId : Nat) (action : Option Str) :
    RateLimitState :=
  match action with
  | some a => { st with limits := st.limits.filter (fun kv => kv.1 != mkKey userId a) }
  | none =>
      { st with limits :=
          st.limits.filter (fun kv => ! (natDigits userId ++ [':']).isPrefixOf kv.1) }

/-- `RateLimitService.isVipUser`. -/
def isVipUser (st : RateLimitState) (userId : Nat) : Bool :=
  st.vipUsers.contains userId

/-- Outcome of one execution of the middleware produced by
`createMiddleware`: either `next()` was called (possibly with rate-limit info
attached to the context) or the update was swallowed with a rejection reply. -/
inductive MwOutcome
  | pass (rateLimit : Option (Nat × Nat))
  | rejected (resetTime : Nat) (blockedUntil : Option Nat)
deriving DecidableEq, Repr

/-- One execution of the middleware returned by
`RateLimitService.createMiddleware(action)` (rateLimitService 459–495) on an
update carrying `fromId` at time `now`.  A missing or falsy (`0`) user id and
a VIP user call `next()` without consulting `checkLimit`. -/
def createMiddleware (action : Str) (st : RateLimitState) (fromId : Option Nat) (now : Nat) :
    Option (MwOutcome × RateLimitState) :=
  match fromId with
  | none => some (.pass none, st)
  | some uid =>
    if uid = 0 then some (.pass none, st)
    else if isVipUser st uid then some (.pass none, st)
    else
      match checkLimit st uid action now with
      | none => none
      | some (res, st2) =>
        if res.allowed then some (.pass (some (res.remaining, res.resetTime)), st2)
        else some (.rejected res.resetTime res.blockedUntil, st2)

/-! ### Claim C4 -/

/-- A sequence of `checkLimit` calls at the given times, threading state. -/
def checkSeq (st : RateLimitState) (u : Nat) (a : Str) :
    List Nat → Option (List CheckResult × RateLimitState)
  | [] => some ([], st)
  | t :: ts =>
    match checkLimit st u a t with
    | none => none
    | some (res, st2) =>
      match checkSeq st2 u a ts with
      | none => none
      | some (rs, st3) => some (res :: rs, st3)

theorem lookup_setAssoc_self {β : Type} (k : Str) (v : β) :
    ∀ l : List (Str × β), List.lookup k (setAssoc k v l) = some v := by
  intro l
  induction l with
  | nil => simp [setAssoc]
  | cons kv rest ih =>
    obtain ⟨k2, v2⟩ := kv
    by_cases h : k2 = k
    · simp [setAssoc, h]
    · have hbeq : (k == k2) = false := beq_eq_false_iff_ne.mpr (fun hc => h hc.symm)
      simp only [setAssoc, if_neg h, List.lookup_cons, hbeq]
      exact ih

theorem setAssoc_setAssoc {β : Type} (k : Str) (v1 v2 : β) :
    ∀ l : List (Str × β), setAssoc k v2 (setAssoc k v1 l) = setAssoc k v2 l := by
  intro l
  induction l with
  | nil => simp [setAssoc]
  | cons kv rest ih =>
    obtain ⟨k2, v2b⟩ := kv
    by_cases h : k2 = k
    · simp [setAssoc, h]
    · simp [setAssoc, h, ih]

theorem setAssoc_self {β : Type} (k : Str) (v : β) :
    ∀ l : List (Str × β), List.lookup k l = some v → setAssoc k v l = l := by
  intro l
  induction l with
  | nil => simp [List.lookup]
  | cons kv rest ih =>
    obtain ⟨k2, v2⟩ := kv
    intro hl
    by_cases h : k2 = k
    · subst h
      simp only [List.lookup_cons_self] at hl
      injection hl with hv
      simp [setAssoc, hv]
    · have hbeq : (k == k2) = false := beq_eq_false_iff_ne.mpr (fun hc => h hc.symm)
      simp only [List.lookup_cons, hbeq] at hl
      simp [setAssoc, h, ih hl]

theorem checkLimit_fresh_step (st : RateLimitState) (u : Nat) (a : Str)
    (rule : RateLimitRule) (t : Nat)
    (hrule : lookupRule st.rules a = some rule)
    (hlook : List.lookup (mkKey u a) st.limits = none)
    (hc : 0 < rule.maxRequests) :
    checkLimit st u a t = some
      (⟨true, rule.maxRequests - 1, t + rule.windowMs, none⟩,
       { st with limits :=
           setAssoc (mkKey u a) ⟨1, t + rule.windowMs, none, 0⟩ st.limits }) := by
  simp only [checkLimit, hrule, hlook, checkCount, if_neg (Nat.not_le.mpr hc)]

theorem checkLimit_allowed_step (st : RateLimitState) (u : Nat) (a : Str)
    (rule : RateLimitRule) (c rT v t : Nat)
    (hrule : lookupRule st.rules a = some rule)
    (hlook : List.lookup (mkKey u a) st.limits = some ⟨c, rT, none, v⟩)
    (ht : t ≤ rT) (hc : c < rule.maxRequests) :
    checkLimit st u a t = some
      (⟨true, rule.maxRequests - (c + 1), rT, none⟩,
       { st with limits := setAssoc (mkKey u a) ⟨c + 1, rT, none, v⟩ st.limits }) := by
  simp only [checkLimit, hrule, hlook, blockedActive, Bool.false_eq_true, if_false,
    if_neg (Nat.not_lt.mpr ht), checkCount, if_neg (Nat.not_le.mpr hc)]

theorem checkLimit_reject_step (st : RateLimitState) (u : Nat) (a : Str)
    (rule : RateLimitRule) (c rT v t b : Nat)
    (hrule : lookupRule st.rules a = some rule)
    (hlook : List.lookup (mkKey u a) st.limits = some ⟨c, rT, none, v⟩)
    (ht : t ≤ rT) (hc : rule.maxRequests ≤ c)
    (hbd : rule.blockDurationMs = some b) (hb : b ≠ 0) :
    checkLimit st u a t = some
      (⟨false, 0, rT, some (t + b)⟩,
       { st with limits :=
           setAssoc (mkKey u a) ⟨c, rT, some (t + b), v + 1⟩ st.limits }) := by
  simp only [checkLimit, hrule, hlook, blockedActive, Bool.false_eq_true, if_false,
    if_neg (Nat.not_lt.mpr ht), checkCount, if_pos hc, hbd, isTruthy,
    decide_eq_true_eq, if_pos hb, Option.getD_some]

theorem checkSeq_window (u : Nat) (a : Str) (rule : RateLimitRule) :
    ∀ (ts : List Nat) (st : RateLimitState) (c rT v : Nat),
      lookupRule st.rules a = some rule →
      List.lookup (mkKey u a) st.limits = some ⟨c, rT, none, v⟩ →
      (∀ t ∈ ts, t ≤ rT) →
      c + ts.length ≤ rule.maxRequests →
      checkSeq st u a ts = some
        ((List.range ts.length).map
            (fun i => ⟨true, rule.maxRequests - (c + i + 1), rT, none⟩),
         { st with limits :=
             setAssoc (mkKey u a) ⟨c + ts.length, rT, none, v⟩ st.limits }) := by
  intro ts
  induction ts with
  | nil =>
    intro st c rT v hrule hlook hwin hcount
    simp only [checkSeq, List.length_nil, List.range_zero, List.map_nil, Nat.add_zero]
    rw [setAssoc_self _ _ _ hlook]
  | cons t ts ih =>
    intro st c rT v hrule hlook hwin hcount
    have hc : c < rule.maxRequests := by
      simp only [List.length_cons] at hcount; omega
    simp only [checkSeq,
      checkLimit_allowed_step st u a rule c rT v t hrule hlook (hwin t (by simp)) hc]
    rw [ih { st with limits := setAssoc (mkKey u a) ⟨c + 1, rT, none, v⟩ st.limits }
      (c + 1) rT v hrule (lookup_setAssoc_self _ _ _)
      (fun t2 ht2 => hwin t2 (by simp [ht2]))
      (by simp only [List.length_cons] at hcount; omega)]
    simp only [setAssoc_setAssoc, List.length_cons, Option.some.injEq, Prod.mk.injEq]
    constructor
    · rw [List.range_succ_eq_map, List.map_cons, List.map_map]
      congr 1
      apply List.map_congr_left
      intro i _
      simp only [Function.comp_apply, CheckResult.mk.injEq, true_and, and_true]
      omega
    · have hn : c + 1 + ts.length = c + (ts.length + 1) := by omega
      rw [hn]

/-- Claim C4: starting from a fresh window under a rule with a (nonzero)
block duration, the `N`-th allowed `checkLimit` call within a single window
(1 ≤ N ≤ maxRequests) returns `remaining = maxRequests - N`, and the
`(maxRequests+1)`-th call within the same window is rejected with a non-null
`blockedUntil` equal to its call time plus the block duration. -/
theorem C4_theorem (st : RateLimitState) (u : Nat) (a : Str) (rule : RateLimitRule)
    (b t0 tb : Nat) (ts : List Nat)
    (hrule : lookupRule st.rules a = some rule)
    (hfresh : List.lookup (mkKey u a) st.limits = none)
    (hbd : rule.blockDurationMs = some b) (hb : b ≠ 0)
    (hlen : (t0 :: ts).length = rule.maxRequests)
    (hwin : ∀ t ∈ t0 :: ts, t ≤ t0 + rule.windowMs)
    (htb : tb ≤ t0 + rule.windowMs) :
    ∃ st2,
      checkSeq st u a (t0 :: ts) = some
        ((List.range rule.maxRequests).map
          (fun i => ⟨true, rule.maxRequests - (i + 1), t0 + rule.windowMs, none⟩), st2) ∧
      (∃ st3, checkLimit st2 u a tb =
        some (⟨false, 0, t0 + rule.windowMs, some (tb + b)⟩, st3)) := by
  have hm : rule.maxRequests = ts.length + 1 := by
    simp only [List.length_cons] at hlen
    omega
  have hmax : 0 < rule.maxRequests := by omega
  have hstep1 := checkLimit_fresh_step st u a rule t0 hrule hfresh hmax
  have hwindow := checkSeq_window u a rule ts
    { st with limits := setAssoc (mkKey u a) ⟨1, t0 + rule.windowMs, none, 0⟩ st.limits }
    1 (t0 + rule.windowMs) 0 hrule (lookup_setAssoc_self _ _ _)
    (fun t2 ht2 => hwin t2 (by simp [ht2])) (by omega)
  refine ⟨{ st with limits := setAssoc (mkKey u a) ⟨1 + ts.length, t0 + rule.windowMs, none, 0⟩ st.limits }, ?_, ?_⟩
  · simp only [checkSeq, hstep1, hwindow, setAssoc_setAssoc]
    rw [hm, List.range_succ_eq_map, List.map_cons, List.map_map]
    congr 2
    rw [List.cons.injEq]
    constructor
    · rfl
    · apply List.map_congr_left
      intro i _
      simp only [Function.comp_apply, CheckResult.mk.injEq, true_and, and_true]
      omega
  · refine ⟨_, checkLimit_reject_step _ u a rule (1 + ts.length) (t0 + rule.windowMs) 0 tb b
      hrule (lookup_setAssoc_self _ _ _) htb (by omega) hbd hb⟩

/-- Witness for C4: the `settings_change` rule (max 5, 60 s window, 60 s
block): five calls at times within one window are allowed with remaining
4,3,2,1,0, and a sixth call at time 200 is rejected blocked until 60200. -/
theorem C4_witness :
    ∃ st2,
      checkSeq ⟨[], [], defaultRules⟩ 3 "settings_change".toList
          [100, 100, 100, 100, 100] = some
        ((List.range 5).map
          (fun i => ⟨true, 5 - (i + 1), 100 + 60000, none⟩), st2) ∧
      (∃ st3, checkLimit st2 3 "settings_change".toList 200 =
        some (⟨false, 0, 100 + 60000, some (200 + 60000)⟩, st3)) :=
  C4_theorem ⟨[], [], defaultRules⟩ 3 "settings_change".toList ⟨5, 60000, some 60000⟩
    60000 100 200 [100, 100, 100, 100] (by decide) (by decide) (by decide) (by decide)
    (by decide) (by decide) (by decide)

/-! ### Claim C10 -/

/-- Read a digit list back as a number. -/
def digitsVal (l : List Char) : Nat :=
  l.foldl (fun acc c => acc * 10 + (c.toNat - 48)) 0

theorem digitChar_toNat (d : Nat) (h : d < 10) : (digitChar d).toNat = 48 + d := by
  interval_cases d <;> decide

theorem digitsVal_append_one (l : List Char) (c : Char) :
    digitsVal (l ++ [c]) = digitsVal l * 10 + (c.toNat - 48) := by
  simp [digitsVal, List.foldl_append]

theorem natDigitsAux_val : ∀ (fuel n : Nat), n ≤ fuel →
    digitsVal (natDigitsAux fuel n) = n := by
  intro fuel
  induction fuel with
  | zero =>
    intro n hn
    have : n = 0 := by omega
    subst this
    simp [natDigitsAux, digitsVal, digitChar_toNat 0 (by norm_num)]
  | succ fuel ih =>
    intro n hn
    by_cases h10 : n < 10
    · simp [natDigitsAux, h10, digitsVal, digitChar_toNat n h10]
    · have hdiv : n / 10 ≤ fuel := by
        have := Nat.div_lt_self (by omega : 0 < n) (by norm_num : 1 < 10)
        omega
      simp only [natDigitsAux, if_neg h10]
      rw [digitsVal_append_one, ih _ hdiv, digitChar_toNat (n % 10) (Nat.mod_lt _ (by norm_num))]
      omega

theorem natDigits_val (n : Nat) : digitsVal (natDigits n) = n :=
  natDigitsAux_val n n le_rfl

theorem natDigits_inj {m n : Nat} (h : natDigits m = natDigits n) : m = n := by
  have := congrArg digitsVal h
  rwa [natDigits_val, natDigits_val] at this

theorem natDigitsAux_digit : ∀ (fuel n : Nat), n ≤ fuel →
    ∀ c ∈ natDigitsAux fuel n, 48 ≤ c.toNat ∧ c.toNat ≤ 57 := by
  intro fuel
  induction fuel with
  | zero =>
    intro n hn c hc
    have : n = 0 := by omega
    subst this
    simp only [natDigitsAux, List.mem_singleton] at hc
    subst hc
    rw [digitChar_toNat 0 (by norm_num)]
    omega
  | succ fuel ih =>
    intro n hn c hc
    by_cases h10 : n < 10
    · simp only [natDigitsAux, if_pos h10, List.mem_singleton] at hc
      subst hc
      rw [digitChar_toNat n h10]
      omega
    · have hdiv : n / 10 ≤ fuel := by
        have := Nat.div_lt_self (by omega : 0 < n) (by norm_num : 1 < 10)
        omega
      simp only [natDigitsAux, if_neg h10, List.mem_append, List.mem_singleton] at hc
      rcases hc with hc | hc
      · exact ih _ hdiv c hc
      · subst hc
        rw [digitChar_toNat (n % 10) (Nat.mod_lt _ (by norm_num))]
        have := Nat.mod_lt n (show 0 < 10 by norm_num)
        omega

theorem natDigits_no_colon (n : Nat) : ':' ∉ natDigits n := by
  intro hmem
  have h := natDigitsAux_digit n n le_rfl ':' hmem
  revert h
  decide

/-- Two digit-colon-prefixed strings agree exactly when their digit parts and
tails agree: the colon acts as an unambiguous separator. -/
theorem append_colon_eq : ∀ {d1 d2 r1 r2 : List Char},
    ':' ∉ d1 → ':' ∉ d2 → d1 ++ ':' :: r1 = d2 ++ ':' :: r2 →
    d1 = d2 ∧ r1 = r2 := by
  intro d1
  induction d1 with
  | nil =>
    intro d2 r1 r2 h1 h2 he
    cases d2 with
    | nil => simpa using he
    | cons c d2 =>
      simp only [List.nil_append, List.cons_append, List.cons.injEq] at he
      exact absurd (he.1 ▸ List.mem_cons_self c d2) h2
  | cons c d1 ih =>
    intro d2 r1 r2 h1 h2 he
    cases d2 with
    | nil =>
      simp only [List.cons_append, List.nil_append, List.cons.injEq] at he
      exact absurd (he.1 ▸ List.mem_cons_self c d1) h1
    | cons c2 d2 =>
      simp only [List.cons_append, List.cons.injEq] at he
      obtain ⟨hc, he2⟩ := he
      have h1a : ':' ∉ d1 := fun hx => h1 (List.mem_cons_of_mem c hx)
      have h2a : ':' ∉ d2 := fun hx => h2 (List.mem_cons_of_mem c2 hx)
      obtain ⟨hd, hr⟩ := ih h1a h2a he2
      exact ⟨by rw [hc, hd], hr⟩

theorem isPrefixOf_mkKey_self (u : Nat) (a : Str) :
    (natDigits u ++ [':']).isPrefixOf (mkKey u a) = true := by
  rw [List.isPrefixOf_iff_prefix, mkKey]
  exact ⟨a, by simp⟩

theorem isPrefixOf_mkKey_ne (u w : Nat) (a : Str) (h : u ≠ w) :
    (natDigits u ++ [':']).isPrefixOf (mkKey w a) = false := by
  rw [Bool.eq_false_iff]
  intro hpre
  rw [List.isPrefixOf_iff_prefix] at hpre
  obtain ⟨t, ht⟩ := hpre
  rw [List.append_assoc, List.singleton_append, mkKey] at ht
  obtain ⟨hd, -⟩ := append_colon_eq (natDigits_no_colon u) (natDigits_no_colon w) ht
  exact h (natDigits_inj hd)

theorem lookup_filter_keep {β : Type} (p : Str × β → Bool) (k : Str)
    (hk : ∀ v, p (k, v) = true) :
    ∀ l : List (Str × β), List.lookup k (l.filter p) = List.lookup k l := by
  intro l
  induction l with
  | nil => simp
  | cons kv rest ih =>
    obtain ⟨k2, v2⟩ := kv
    by_cases hke : k = k2
    · subst hke
      rw [List.filter_cons, if_pos (hk v2)]
      simp
    · have hbeq : (k == k2) = false := beq_eq_false_iff_ne.mpr hke
      rw [List.filter_cons]
      by_cases hp : p (k2, v2) = true
      · rw [if_pos hp]
        simp only [List.lookup_cons, hbeq]
        exact ih
      · rw [if_neg hp, ih]
        simp only [List.lookup_cons, hbeq]

theorem lookup_filter_drop {β : Type} (p : Str × β → Bool) (k : Str)
    (hk : ∀ v, p (k, v) = false) :
    ∀ l : List (Str × β), List.lookup k (l.filter p) = none := by
  intro l
  induction l with
  | nil => simp
  | cons kv rest ih =>
    obtain ⟨k2, v2⟩ := kv
    rw [List.filter_cons]
    by_cases hp : p (k2, v2) = true
    · have hke : k ≠ k2 := by
        intro hc
        subst hc
        rw [hk v2] at hp
        exact absurd hp (by simp)
      have hbeq : (k == k2) = false := beq_eq_false_iff_ne.mpr hke
      rw [if_pos hp]
      simp only [List.lookup_cons, hbeq]
      exact ih
    · rw [if_neg hp]
      exact ih

/-- Claim C10: `resetUserLimits(u)` with no action removes exactly the rate
windows keyed `` `u:action` `` and nothing else: every key of user `u` is
gone, the windows of every other user — including one whose decimal id
extends `u`'s digits, like 12 versus 123 — are untouched, and the VIP set and
the rule table are preserved.  A key starts with `` `u:` `` iff it is of the
form `mkKey u a`. -/
theorem C10_theorem (st : RateLimitState) (u : Nat) :
    (resetUserLimits st u none).rules = st.rules ∧
    (resetUserLimits st u none).vipUsers = st.vipUsers ∧
    (∀ a : Str, List.lookup (mkKey u a) (resetUserLimits st u none).limits = none) ∧
    (∀ (w : Nat) (a : Str), w ≠ u →
      List.lookup (mkKey w a) (resetUserLimits st u none).limits =
        List.lookup (mkKey w a) st.limits) ∧
    (∀ kv : Str × UserLimitInfo, kv ∈ (resetUserLimits st u none).limits ↔
      (kv ∈ st.limits ∧ (natDigits u ++ [':']).isPrefixOf kv.1 = false)) ∧
    (∀ k : Str, (natDigits u ++ [':']).isPrefixOf k = true ↔ ∃ a, k = mkKey u a) := by
  refine ⟨rfl, rfl, ?_, ?_, ?_, ?_⟩
  · intro a
    apply lookup_filter_drop
    intro v
    simp [isPrefixOf_mkKey_self u a]
  · intro w a hw
    apply lookup_filter_keep
    intro v
    simp [isPrefixOf_mkKey_ne u w a (fun hc => hw hc.symm)]
  · intro kv
    simp only [resetUserLimits, List.mem_filter, Bool.not_eq_eq_eq_not, Bool.not_true]
  · intro k
    constructor
    · intro hp
      rw [List.isPrefixOf_iff_prefix] at hp
      obtain ⟨t, ht⟩ := hp
      exact ⟨t, by rw [← ht, mkKey, List.append_assoc, List.singleton_append]⟩
    · rintro ⟨a, rfl⟩
      exact isPrefixOf_mkKey_self u a

/-- Witness for C10: with windows for users 12 and 123 and a VIP set,
resetting user 12 removes only the key `12:global` and preserves user 123's
window, the VIP set and the rules. -/
theorem C10_witness :
    List.lookup (mkKey 12 "global".toList)
      (resetUserLimits ⟨[(mkKey 12 "global".toList, ⟨1, 5, none, 0⟩),
        (mkKey 123 "global".toList, ⟨2, 6, none, 0⟩)], [9], defaultRules⟩ 12 none).limits
      = none ∧
    List.lookup (mkKey 123 "global".toList)
      (resetUserLimits ⟨[(mkKey 12 "global".toList, ⟨1, 5, none, 0⟩),
        (mkKey 123 "global".toList, ⟨2, 6, none, 0⟩)], [9], defaultRules⟩ 12 none).limits
      = some ⟨2, 6, none, 0⟩ ∧
    (resetUserLimits ⟨[(mkKey 12 "global".toList, ⟨1, 5, none, 0⟩),
        (mkKey 123 "global".toList, ⟨2, 6, none, 0⟩)], [9], defaultRules⟩ 12 none).vipUsers
      = [9] ∧
    (resetUserLimits ⟨[(mkKey 12 "global".toList, ⟨1, 5, none, 0⟩),
        (mkKey 123 "global".toList, ⟨2, 6, none, 0⟩)], [9], defaultRules⟩ 12 none).rules
      = defaultRules := by
  obtain ⟨hr, hv, hu, hw, -, -⟩ := C10_theorem
    ⟨[(mkKey 12 "global".toList, ⟨1, 5, none, 0⟩),
      (mkKey 123 "global".toList, ⟨2, 6, none, 0⟩)], [9], defaultRules⟩ 12
  refine ⟨hu "global".toList, ?_, hv, hr⟩
  rw [hw 123 "global".toList (by norm_num)]
  decide

end RateLimitService

/-! ## Claim C2 -/

namespace RateLimitService

/-- Repeated executions of the middleware for the same update data, threading
the rate-limit state. -/
def mwIterate (action : Str) (fromId : Option Nat) (now : Nat) :
    Nat → RateLimitState → Option (List MwOutcome × RateLimitState)
  | 0, st => some ([], st)
  | n + 1, st =>
    match createMiddleware action st fromId now with
    | none => none
    | some (o, st2) =>
      match mwIterate action fromId now n st2 with
      | none => none
      | some (os, st3) => some (o :: os, st3)

/-- The property claimed of `checkLimit`: a VIP user's call always comes back
allowed and leaves the rate-limit state untouched. -/
def C2Holds : Prop :=
  ∀ (st : RateLimitState) (u : Nat) (a : Str) (now : Nat)
    (res : CheckResult) (st2 : RateLimitState),
    isVipUser st u = true → checkLimit st u a now = some (res, st2) →
    res.allowed = true ∧ st2 = st

/-- Claim C2: `RateLimitService.checkLimit` always allows VIP users and
mutates no state — REFUTED.  `checkLimit` itself never consults the VIP set:
already the first call by VIP user 7 writes a window entry with `count = 1`
into `limits`, so the state is mutated. -/
theorem C2_counterexample : ¬ C2Holds := by
  intro h
  have h2 := h ⟨[], [7], defaultRules⟩ 7 "settings_change".toList 0
    ⟨true, 4, 60000, none⟩
    ⟨[(mkKey 7 "settings_change".toList, ⟨1, 60000, none, 0⟩)], [7], defaultRules⟩
    (by decide) (by decide)
  exact absurd h2.2 (by decide)

/-- Claim C2 (amended): the VIP bypass lives in
`RateLimitService.createMiddleware`, not in `checkLimit`: for a VIP user the
middleware calls `next()` without invoking `checkLimit`, so the user is never
rejected and no rate-limit state is mutated, for any number of calls. -/
theorem C2_theorem (action : Str) (st : RateLimitState) (uid : Nat) (now : Nat) (n : Nat)
    (hvip : isVipUser st uid = true) :
    mwIterate action (some uid) now n st = some (List.replicate n (.pass none), st) := by
  induction n with
  | zero => simp [mwIterate]
  | succ n ih =>
    have hmw : createMiddleware action st (some uid) now = some (.pass none, st) := by
      by_cases h0 : uid = 0
      · simp [createMiddleware, h0]
      · simp [createMiddleware, h0, hvip]
    simp [mwIterate, hmw, ih, List.replicate_succ]

/-- Witness for C2: VIP user 42 passes the text-message middleware 3 times in
a row with the state unchanged. -/
theorem C2_witness :
    mwIterate "text_message".toList (some 42) 1000 3 ⟨[], [42], defaultRules⟩ =
      some ([.pass none, .pass none, .pass none], ⟨[], [42], defaultRules⟩) :=
  C2_theorem "text_message".toList ⟨[], [42], defaultRules⟩ 42 1000 3 (by decide)

end RateLimitService

/-! ## OpenRouterService (openRouterService.ts 46–213) -/

namespace OpenRouterService

/-- What the environment delivers to one attempt of `callOpenRouter`: either
the `fetch`/`json` chain throws (network error, abort on the 120 s timeout),
or an HTTP response arrives with a status, an error-body text, and — for `ok`
responses — the result of schema validation and text extraction (`okOut`). -/
inductive OkOutcome
  | parseFail (msg : String)
  | content (extracted : String)
deriving DecidableEq, Repr

/-- One attempt's upstream interaction. -/
inductive FetchOutcome
  | netErr (msg : String)
  | resp (status : Nat) (body : String) (okOut : OkOutcome)
deriving DecidableEq, Repr

/-- `String.trim` on our JS-string model, packaged for `String`. -/
def trimStr (s : String) : String :=
  ⟨jsTrim s.toList⟩

/-- The body of one `while` iteration of `callOpenRouter` (openRouterService
62–130): classify the response exactly as the source does.  `response.ok`
means a status in 200–299. -/
def attemptStep : FetchOutcome → Except String String
  | .netErr m => .error m
  | .resp status body okOut =>
    if 200 ≤ status ∧ status < 300 then
      match okOut with
      | .parseFail m => .error ("Не удалось распарсить ответ OpenRouter: " ++ m)
      | .content s =>
        let c := trimStr s
        if c = "" then .error "OpenRouter не вернул содержимое ответа." else .ok c
    else if status = 429 ∨ 500 ≤ status then
      .error ("Сервис вернул статус " ++ toString status)
    else
      .error ("Ошибка OpenRouter: " ++ toString status ++ " " ++ body)

/-- Result of a whole `callOpenRouter` call, with the number of attempts that
ran and the total backoff the loop slept. -/
structure CallResult where
  result : Except String String
  attemptsUsed : Nat
  totalBackoffMs : Nat
deriving Repr

/-- The retry loop `while (attempt < 3)` of `callOpenRouter`: `fuel` counts
the remaining iterations (`3 - attempt`), a failed attempt increments
`attempt` and, when more attempts remain, sleeps `400 * 2 ** (attempt - 1)`
milliseconds. -/
def callLoop (env : Nat → FetchOutcome) : Nat → Nat → Option String → Nat → CallResult
  | 0, attempt, lastErr, acc =>
    ⟨.error ("Не удалось получить ответ от OpenRouter: " ++
        lastErr.getD "Неизвестная ошибка"), attempt, acc⟩
  | fuel + 1, attempt, _, acc =>
    match attemptStep (env attempt) with
    | .ok c => ⟨.ok c, attempt + 1, acc⟩
    | .error e =>
      callLoop env fuel (attempt + 1) (some e)
        (if attempt + 1 < 3 then acc + 400 * 2 ^ attempt else acc)

/-- `OpenRouterService.callOpenRouter` (openRouterService 62–135), as a
function of the per-attempt upstream outcomes.  (After the failure of attempt
`k` — 0-based — the next attempt index is `k+1` and the JS backoff is
`400 * 2 ** ((k+1) - 1) = 400 * 2 ** k`.) -/
def callOpenRouter (env : Nat → FetchOutcome) : CallResult :=
  callLoop env 3 0 none 0

/-! ### Claim C3 -/

/-- The property claimed: an attempt answered with a 4xx status other than 429
makes the whole call fail immediately — one attempt, no backoff — with the
upstream's status and body. -/
def C3Holds : Prop :=
  ∀ (s : Nat) (body : String) (ok : OkOutcome) (env : Nat → FetchOutcome),
    env 0 = .resp s body ok → 400 ≤ s → s < 500 → s ≠ 429 →
    (callOpenRouter env).attemptsUsed = 1 ∧ (callOpenRouter env).totalBackoffMs = 0

/-- Claim C3: a 4xx status other than 429 fails immediately without consuming
further attempts — REFUTED.  The `throw` for such a status is caught by the
same `catch` as every other failure, so the loop retries it: with the
upstream answering 400 on every attempt, all 3 attempts run and the loop
sleeps 400 ms and 800 ms in between. -/
theorem C3_counterexample : ¬ C3Holds := by
  intro h
  have h2 := h 400 "bad" (.content "x") (fun _ => .resp 400 "bad" (.content "x"))
    rfl (by norm_num) (by norm_num) (by norm_num)
  have h3 : (callOpenRouter (fun _ => .resp 400 "bad" (.content "x"))).attemptsUsed = 3 := by
    decide
  omega

/-- Claim C3 (amended): an attempt answered with a 4xx status other than 429
raises an error carrying the upstream's status and body, but it is retried
like any other failure: with such responses on every attempt, the call runs
all 3 attempts, sleeps the 400 ms and 800 ms backoffs, and finally fails with
a message wrapping that status-and-body error. -/
theorem C3_theorem (s : Nat) (body : String) (ok : OkOutcome)
    (h1 : 400 ≤ s) (h2 : s < 500) (h3 : s ≠ 429) :
    callOpenRouter (fun _ => .resp s body ok) =
      ⟨.error ("Не удалось получить ответ от OpenRouter: " ++
          ("Ошибка OpenRouter: " ++ toString s ++ " " ++ body)), 3, 1200⟩ := by
  have hA : ¬(200 ≤ s ∧ s < 300) := by omega
  have hB : ¬(s = 429 ∨ 500 ≤ s) := by omega
  simp [callOpenRouter, callLoop, attemptStep, hA, hB]

/-- Witness for C3 (amended) at status 404. -/
theorem C3_witness :
    callOpenRouter (fun _ => .resp 404 "not found" (.content "x")) =
      ⟨.error ("Не удалось получить ответ от OpenRouter: " ++
          ("Ошибка OpenRouter: " ++ toString (404 : Nat) ++ " " ++ "not found")), 3, 1200⟩ :=
  C3_theorem 404 "not found" (.content "x") (by norm_num) (by norm_num) (by norm_num)

/-! ### Bounded-concurrency dispatcher
(`executeWithConcurrencyLimit` / `processQueue`, openRouterService 157–190).
Submitted operations are identified by numbers; `running` are the operations
whose `execute` has started and not yet reached its `finally`, `requestQueue`
holds the queued closures in order.  `enqueuedLog`/`dequeuedLog` record the
history of queue entries and of dispatches from the queue. -/

def MAX_CONCURRENT_REQUESTS : Nat := 5

structure UpstreamState where
  currentRequests : Nat := 0
  running : List Nat := []
  requestQueue : List Nat := []
  enqueuedLog : List Nat := []
  dequeuedLog : List Nat := []
deriving DecidableEq, Repr

/-- `processQueue` (openRouterService 183–190): if the queue is nonempty and a
slot is free, shift the first closure and invoke it (its `execute` increments
`currentRequests` and starts the operation). -/
def processQueue (s : UpstreamState) : UpstreamState :=
  match s.requestQueue with
  | [] => s
  | next :: rest =>
    if s.currentRequests < MAX_CONCURRENT_REQUESTS then
      { s with requestQueue := rest,
               currentRequests := s.currentRequests + 1,
               running := s.running ++ [next],
               dequeuedLog := s.dequeuedLog ++ [next] }
    else s

/-- The two externally visible transitions of the dispatcher: a new submission
(`executeWithConcurrencyLimit`, openRouterService 157–178) and the settlement
of a running operation (the `finally` block: decrement, then `processQueue`). -/
inductive UpstreamEvent
  | submit (id : Nat)
  | complete (id : Nat)
deriving DecidableEq, Repr

def upstreamStep (s : UpstreamState) : UpstreamEvent → UpstreamState
  | .submit id =>
    if s.currentRequests < MAX_CONCURRENT_REQUESTS then
      { s with currentRequests := s.currentRequests + 1, running := s.running ++ [id] }
    else
      { s with requestQueue := s.requestQueue ++ [id], enqueuedLog := s.enqueuedLog ++ [id] }
  | .complete id =>
    if s.running.contains id then
      processQueue
        { s with currentRequests := s.currentRequests - 1, running := s.running.erase id }
    else s

/-- Run the dispatcher over a sequence of events from the initial state. -/
def upstreamRun (events : List UpstreamEvent) : UpstreamState :=
  events.foldl upstreamStep {}

/-! ### Claim C9 -/

/-- Dispatcher invariant: the counter tracks the running set, the cap holds,
and the enqueue history is exactly the dispatch history followed by the
current queue (FIFO order preserved). -/
def UpstreamInv (s : UpstreamState) : Prop :=
  s.currentRequests = s.running.length ∧
  s.running.length ≤ MAX_CONCURRENT_REQUESTS ∧
  s.enqueuedLog = s.dequeuedLog ++ s.requestQueue

theorem max_concurrent_eq : MAX_CONCURRENT_REQUESTS = 5 := rfl

theorem upstreamInv_step (s : UpstreamState) (e : UpstreamEvent)
    (h : UpstreamInv s) : UpstreamInv (upstreamStep s e) := by
  obtain ⟨h1, h2, h3⟩ := h
  rw [max_concurrent_eq] at h2
  cases e with
  | submit id =>
    simp only [upstreamStep]
    split
    next hc =>
      rw [max_concurrent_eq] at hc
      refine ⟨?_, ?_, ?_⟩
      · dsimp only; simp [h1]
      · dsimp only; rw [max_concurrent_eq]; simp only [List.length_append,
          List.length_cons, List.length_nil]; omega
      · dsimp only; exact h3
    next =>
      refine ⟨h1, ?_, ?_⟩
      · dsimp only; rw [max_concurrent_eq]; exact h2
      · dsimp only; rw [h3, List.append_assoc]
  | complete id =>
    simp only [upstreamStep]
    split
    next hm =>
      have hmem : id ∈ s.running := by simpa using hm
      have hlen : (s.running.erase id).length = s.running.length - 1 :=
        List.length_erase_of_mem hmem
      have hpos : 0 < s.running.length := List.length_pos.mpr (by
        intro hnil; rw [hnil] at hmem; simp at hmem)
      simp only [processQueue]
      split
      next hq =>
        refine ⟨?_, ?_, ?_⟩
        · dsimp only; omega
        · dsimp only; rw [max_concurrent_eq]; omega
        · dsimp only; rw [h3, hq, List.append_nil]
      next n rest hq =>
        split
        next =>
          refine ⟨?_, ?_, ?_⟩
          · dsimp only; simp only [List.length_append, List.length_cons,
              List.length_nil]; omega
          · dsimp only; rw [max_concurrent_eq]; simp only [List.length_append,
              List.length_cons, List.length_nil]; omega
          · dsimp only; rw [h3, hq, List.append_assoc]; rfl
        next hc =>
          exfalso
          rw [max_concurrent_eq] at hc
          omega
    next =>
      exact ⟨h1, by rw [max_concurrent_eq]; exact h2, h3⟩

theorem upstreamInv_run (events : List UpstreamEvent) : UpstreamInv (upstreamRun events) := by
  suffices h : ∀ s, UpstreamInv s → UpstreamInv (events.foldl upstreamStep s) from
    h {} ⟨rfl, by simp [MAX_CONCURRENT_REQUESTS], rfl⟩
  induction events with
  | nil => exact fun s hs => hs
  | cons e rest ih => exact fun s hs => ih _ (upstreamInv_step s e hs)

/-- Claim C9: the upstream dispatcher runs at most 5 calls concurrently, a
submission arriving with 5 running is appended to the pending queue, and
queued calls are dispatched strictly in submission order: after any event
sequence the counter equals the number of running calls, never exceeds the
cap, the dispatch history followed by the pending queue equals the enqueue
history (first enqueued, first dispatched), and a submission while the cap is
reached only appends to the queue. -/
theorem C9_theorem (events : List UpstreamEvent) :
    (upstreamRun events).currentRequests = (upstreamRun events).running.length ∧
    (upstreamRun events).running.length ≤ MAX_CONCURRENT_REQUESTS ∧
    (upstreamRun events).enqueuedLog =
      (upstreamRun events).dequeuedLog ++ (upstreamRun events).requestQueue ∧
    (∀ id : Nat, MAX_CONCURRENT_REQUESTS ≤ (upstreamRun events).currentRequests →
      upstreamStep (upstreamRun events) (.submit id) =
        { upstreamRun events with
            requestQueue := (upstreamRun events).requestQueue ++ [id],
            enqueuedLog := (upstreamRun events).enqueuedLog ++ [id] }) := by
  obtain ⟨h1, h2, h3⟩ := upstreamInv_run events
  refine ⟨h1, h2, h3, fun id hfull => ?_⟩
  have hc : ¬ (upstreamRun events).currentRequests < MAX_CONCURRENT_REQUESTS := by omega
  simp [upstreamStep, hc]

/-- Witness for C9: five submissions fill the pool; a sixth is queued, not
started. -/
theorem C9_witness :
    upstreamStep (upstreamRun [.submit 1, .submit 2, .submit 3, .submit 4, .submit 5])
        (.submit 6) =
      { currentRequests := 5, running := [1, 2, 3, 4, 5], requestQueue := [6],
        enqueuedLog := [6], dequeuedLog := [] } ∧
    (upstreamRun [.submit 1, .submit 2, .submit 3, .submit 4, .submit 5]).running.length ≤
      MAX_CONCURRENT_REQUESTS := by
  obtain ⟨-, h2, -, h4⟩ := C9_theorem [.submit 1, .submit 2, .submit 3, .submit 4, .submit 5]
  refine ⟨?_, h2⟩
  rw [h4 6 (by decide)]
  decide

end OpenRouterService

/-! ## ImageProcessor (imageProcessor.ts 37–211) -/

namespace ImageProcessor

/-- What the environment delivers to attempt `k` (1-based) of
`executeImageProcessing`: the race of `callOpenRouter` against the request
timeout either resolves with a reply or rejects with an error message, taking
`durationMs` milliseconds. -/
inductive AttemptOutcome
  | success (reply : String) (durationMs : Nat)
  | failure (msg : String) (durationMs : Nat)
deriving DecidableEq, Repr

/-- `ProcessingResult` (imageProcessor.ts 21–26). -/
structure ProcessingResult where
  success : Bool
  result : Option String := none
  error : Option String := none
  processingTime : Nat
deriving DecidableEq, Repr

/-- The `for (attempt = 1; attempt <= maxRetries; attempt++)` loop of
`executeImageProcessing` (imageProcessor.ts 141–201): `remaining` counts the
iterations left (`maxRetries - attempt + 1`), `elapsed` is the clock offset
from `startTime`, non-final failures sleep `1000 * 2 ** (attempt - 1)`.
Returns the result paired with the number of attempts performed. -/
def imgLoop (env : Nat → AttemptOutcome) (maxRetries : Nat) :
    Nat → Nat → Nat → Option String → ProcessingResult × Nat
  | 0, _, elapsed, lastErr =>
    (⟨false, none,
      some ("Не удалось обработать изображение после " ++ toString maxRetries ++
        " попыток: " ++ lastErr.getD "Неизвестная ошибка"), elapsed⟩,
     maxRetries)
  | remaining + 1, attempt, elapsed, _ =>
    match env attempt with
    | .success reply d => (⟨true, some reply, none, elapsed + d⟩, attempt)
    | .failure m d =>
      imgLoop env maxRetries remaining (attempt + 1)
        (elapsed + d + (if attempt < maxRetries then 1000 * 2 ^ (attempt - 1) else 0))
        (some m)

/-- `ImageProcessor.executeImageProcessing` (imageProcessor.ts 130–211) as a
function of the per-attempt outcomes; also yields the number of attempts that
actually consulted the upstream. -/
def executeImageProcessing (maxRetries : Nat) (env : Nat → AttemptOutcome) :
    ProcessingResult × Nat :=
  imgLoop env maxRetries maxRetries 1 0 none

/-- The config normalisation of the constructor (imageProcessor.ts 52–57):
`config.maxRetries || 2`, so a missing or zero value becomes 2. -/
def normalizeMaxRetries : Option Nat → Nat
  | some n => if n = 0 then 2 else n
  | none => 2

/-! ### Claim C8 -/

/-- An environment in which the raced upstream call rejects on every attempt,
with per-attempt message and duration. -/
def allFailEnv (msgs : Nat → String) (durs : Nat → Nat) : Nat → AttemptOutcome :=
  fun k => .failure (msgs k) (durs k)

/-- Clock offset accumulated by the remaining `r` all-failing iterations
starting at attempt number `attempt`: each attempt's duration plus the
backoff slept after every non-final attempt. -/
def failElapsed (durs : Nat → Nat) (mr : Nat) : Nat → Nat → Nat
  | 0, _ => 0
  | r + 1, attempt =>
    durs attempt + (if attempt < mr then 1000 * 2 ^ (attempt - 1) else 0) +
      failElapsed durs mr r (attempt + 1)

theorem imgLoop_fail_step (env : Nat → AttemptOutcome) (mr r attempt elapsed : Nat)
    (le : Option String) (m : String) (d : Nat) (h : env attempt = .failure m d) :
    imgLoop env mr (r + 1) attempt elapsed le =
      imgLoop env mr r (attempt + 1)
        (elapsed + d + (if attempt < mr then 1000 * 2 ^ (attempt - 1) else 0)) (some m) := by
  conv_lhs => rw [imgLoop]
  rw [h]

theorem imgLoop_allFail (msgs : Nat → String) (durs : Nat → Nat) (mr : Nat) :
    ∀ (r : Nat), 1 ≤ r → ∀ (attempt elapsed : Nat) (le : Option String),
      attempt + r = mr + 1 →
      imgLoop (allFailEnv msgs durs) mr r attempt elapsed le =
        (⟨false, none,
          some ("Не удалось обработать изображение после " ++ toString mr ++
            " попыток: " ++ msgs mr), elapsed + failElapsed durs mr r attempt⟩, mr) := by
  intro r
  induction r with
  | zero => omega
  | succ r ih =>
    intro _ attempt elapsed le hsum
    rw [imgLoop_fail_step (allFailEnv msgs durs) mr r attempt elapsed le _ _ rfl]
    cases r with
    | zero =>
      have hat : attempt = mr := by omega
      subst hat
      simp only [imgLoop, failElapsed, Option.getD_some]
      refine Prod.ext ?_ rfl
      simp only [ProcessingResult.mk.injEq, true_and]
      omega
    | succ r2 =>
      rw [ih (by omega) (attempt + 1) _ (some (msgs attempt)) (by omega)]
      refine Prod.ext ?_ rfl
      simp only [ProcessingResult.mk.injEq, true_and]
      simp only [failElapsed]
      omega
theorem failElapsed_eq_sum (durs : Nat → Nat) (mr : Nat) :
    ∀ (r attempt : Nat),
      failElapsed durs mr r attempt =
        (Finset.range r).sum (fun i => durs (attempt + i)) +
        (Finset.range r).sum
          (fun i => if attempt + i < mr then 1000 * 2 ^ (attempt + i - 1) else 0) := by
  intro r
  induction r with
  | zero => intro attempt; simp [failElapsed]
  | succ r ih =>
    intro attempt
    rw [failElapsed, ih (attempt + 1)]
    have e1 : (Finset.range (r + 1)).sum (fun i => durs (attempt + i)) =
        durs attempt + (Finset.range r).sum (fun i => durs (attempt + 1 + i)) := by
      rw [Finset.sum_range_succ', Nat.add_comm]
      congr 1
      apply Finset.sum_congr rfl
      intro i _
      have h : attempt + (i + 1) = attempt + 1 + i := by omega
      rw [h]
    have e2 : (Finset.range (r + 1)).sum
          (fun i => if attempt + i < mr then 1000 * 2 ^ (attempt + i - 1) else 0) =
        (if attempt < mr then 1000 * 2 ^ (attempt - 1) else 0) +
        (Finset.range r).sum
          (fun i => if attempt + 1 + i < mr then 1000 * 2 ^ (attempt + 1 + i - 1) else 0) := by
      rw [Finset.sum_range_succ', Nat.add_comm]
      congr 1
      apply Finset.sum_congr rfl
      intro i _
      have h : attempt + (i + 1) = attempt + 1 + i := by omega
      rw [h]
    rw [e1, e2]
    omega

theorem C8_theorem (mr : Nat) (hmr : 1 ≤ mr) (msgs : Nat → String) (durs : Nat → Nat) :
    (executeImageProcessing mr (allFailEnv msgs durs)).2 = mr ∧
    (executeImageProcessing mr (allFailEnv msgs durs)).1.success = false ∧
    (executeImageProcessing mr (allFailEnv msgs durs)).1.error =
      some ("Не удалось обработать изображение после " ++ toString mr ++
        " попыток: " ++ msgs mr) ∧
    (executeImageProcessing mr (allFailEnv msgs durs)).1.processingTime =
      (Finset.range mr).sum (fun i => durs (i + 1)) +
      (Finset.range (mr - 1)).sum (fun i => 1000 * 2 ^ i) ∧
    (2 ≤ mr → 1000 ≤ (executeImageProcessing mr (allFailEnv msgs durs)).1.processingTime) := by
  have hrun := imgLoop_allFail msgs durs mr mr hmr 1 0 none (by omega)
  have hsum : failElapsed durs mr mr 1 =
      (Finset.range mr).sum (fun i => durs (i + 1)) +
      (Finset.range (mr - 1)).sum (fun i => 1000 * 2 ^ i) := by
    rw [failElapsed_eq_sum durs mr mr 1]
    have eA : (Finset.range mr).sum (fun i => durs (1 + i)) =
        (Finset.range mr).sum (fun i => durs (i + 1)) :=
      Finset.sum_congr rfl (fun i _ => by rw [Nat.add_comm])
    have eB : (Finset.range mr).sum
          (fun i => if 1 + i < mr then 1000 * 2 ^ (1 + i - 1) else 0) =
        (Finset.range (mr - 1)).sum (fun i => 1000 * 2 ^ i) := by
      obtain ⟨m, rfl⟩ : ∃ m, mr = m + 1 := ⟨mr - 1, by omega⟩
      rw [Finset.sum_range_succ]
      have hlast : ¬ (1 + m < m + 1) := by omega
      rw [if_neg hlast, Nat.add_zero]
      simp only [Nat.add_sub_cancel]
      apply Finset.sum_congr rfl
      intro i hi
      have hcond : 1 + i < m + 1 := by
        have := Finset.mem_range.mp hi
        omega
      rw [if_pos hcond]
      congr 1
      congr 1
      omega
    rw [eA, eB]
  unfold executeImageProcessing
  rw [hrun]
  refine ⟨rfl, rfl, rfl, by simpa using hsum, fun h2 => ?_⟩
  simp only [Nat.zero_add]
  rw [hsum]
  have hmem : (0 : Nat) ∈ Finset.range (mr - 1) := Finset.mem_range.mpr (by omega)
  have hle := Finset.single_le_sum (f := fun i => 1000 * 2 ^ i)
    (fun i _ => Nat.zero_le _) hmem
  simp only [pow_zero, Nat.mul_one] at hle
  omega

theorem C8_witness :
    (executeImageProcessing 2 (allFailEnv (fun _ => "boom") (fun _ => 10))).2 = 2 ∧
    (executeImageProcessing 2 (allFailEnv (fun _ => "boom") (fun _ => 10))).1.processingTime
      = 1020 ∧
    1000 ≤ (executeImageProcessing 2
      (allFailEnv (fun _ => "boom") (fun _ => 10))).1.processingTime := by
  obtain ⟨a, -, -, d, e⟩ := C8_theorem 2 (by norm_num) (fun _ => "boom") (fun _ => 10)
  refine ⟨a, ?_, e (by norm_num)⟩
  rw [d]
  simp [Finset.sum_range_succ]

end ImageProcessor

/-! ## Single-flight admission (bot.ts `processTextMessage` 318–428,
nonBlockingImageHandler.ts 71–301, imageProcessor.ts `processImageAsync`
67–125).

The per-user admission logic is modelled as an interleaving machine for one
fixed user.  A text submission (`processTextMessage`) checks
`userActiveRequests.has(userId) || isProcessingImageForUser(userId)` and — in
the same synchronous step, with no `await` in between (bot.ts 322–354) — sets
the active flag.  An image submission performs the same check
(nonBlockingImageHandler 110) but then `await`s the status reply and the file
download before `processImageAsync` registers the job in `processingJobs`
(imageProcessor.ts 96); this suspension window is the `preparing` phase. -/

namespace SingleFlight

inductive TextPhase
  | checking | working | done | rejected
deriving DecidableEq, Repr

inductive ImagePhase
  | checking | preparing | working | done | rejected
deriving DecidableEq, Repr

structure BotState where
  userActiveRequest : Bool
  imageJobs : Nat
  texts : List TextPhase
  images : List ImagePhase
deriving DecidableEq, Repr

/-- Number of heavy requests currently registered for the user: the text
active flag plus the user's entries in the image processor's job map. -/
def heavyCount (s : BotState) : Nat :=
  (if s.userActiveRequest then 1 else 0) + s.imageJobs

/-- The admission test used by both paths:
`userActiveRequests.has(userId) || imageProcessor.isProcessingForUser(userId)`. -/
def busy (s : BotState) : Bool :=
  s.userActiveRequest || decide (s.imageJobs ≠ 0)

inductive BotAction
  | stepText (i : Nat)
  | stepImage (i : Nat)
deriving DecidableEq, Repr

/-- Advance one handler by one scheduler step. -/
def botStep (s : BotState) : BotAction → Option BotState
  | .stepText i =>
    match s.texts.get? i with
    | none => none
    | some .checking =>
      if busy s then some { s with texts := s.texts.set i .rejected }
      else some { s with userActiveRequest := true, texts := s.texts.set i .working }
    | some .working =>
      some { s with userActiveRequest := false, texts := s.texts.set i .done }
    | some _ => none
  | .stepImage i =>
    match s.images.get? i with
    | none => none
    | some .checking =>
      if busy s then some { s with images := s.images.set i .rejected }
      else some { s with images := s.images.set i .preparing }
    | some .preparing =>
      some { s with imageJobs := s.imageJobs + 1, images := s.images.set i .working }
    | some .working =>
      some { s with imageJobs := s.imageJobs - 1, images := s.images.set i .done }
    | some _ => none

/-- Run a schedule; `none` when an action addresses a handler that cannot
move. -/
def botRun (s : BotState) : List BotAction → Option BotState
  | [] => some s
  | a :: rest =>
    match botStep s a with
    | none => none
    | some s2 => botRun s2 rest

/-- Initial state: `nT` pending text submissions and `nI` pending image
submissions, nothing registered. -/
def mkInit (nT nI : Nat) : BotState :=
  ⟨false, 0, List.replicate nT .checking, List.replicate nI .checking⟩

end SingleFlight

/-! ## Claim C1 -/

namespace SingleFlight

/-- The property claimed: from any pool of pending text/image submissions of
one user, every reachable state registers at most one heavy request. -/
def C1Holds : Prop :=
  ∀ (nT nI : Nat) (acts : List BotAction) (s : BotState),
    botRun (mkInit nT nI) acts = some s → heavyCount s ≤ 1

/-- In a run without image submissions, no image job is ever created. -/
theorem botRun_textOnly : ∀ (acts : List BotAction) (s s2 : BotState),
    s.images = [] → s.imageJobs = 0 → botRun s acts = some s2 →
    s2.images = [] ∧ s2.imageJobs = 0 := by
  intro acts
  induction acts with
  | nil =>
    intro s s2 h1 h2 h3
    simp only [botRun, Option.some.injEq] at h3
    exact h3 ▸ ⟨h1, h2⟩
  | cons a rest ih =>
    intro s s2 h1 h2 h3
    simp only [botRun] at h3
    cases ha : botStep s a with
    | none => rw [ha] at h3; exact absurd h3 (by simp)
    | some s1 =>
      rw [ha] at h3
      refine ih s1 s2 ?_ ?_ h3 <;>
      · cases a with
        | stepText i =>
          simp only [botStep] at ha
          cases hg : s.texts.get? i <;> rw [hg] at ha
          · exact absurd ha (by simp)
          · rename_i ph
            cases ph <;> simp only at ha
            · split at ha <;>
              · injection ha with ha; rw [← ha]; simp [h1, h2]
            · injection ha with ha; rw [← ha]; simp [h1, h2]
            · exact absurd ha (by simp)
            · exact absurd ha (by simp)
        | stepImage i =>
          simp only [botStep] at ha
          rw [h1] at ha
          simp at ha

/-- Claim C1: at most one heavy request (text or image) per user is ever
registered, even under back-to-back submissions — REFUTED.  The image path's
admission check and its job registration are separated by `await`s (status
reply, file download), so a text message slipped into that window is admitted
as well: after the schedule image-check, text-check-and-set, image-register,
both the text flag and an image job are registered for the same user. -/
theorem C1_counterexample : ¬ C1Holds := by
  intro h
  have h2 := h 1 1 [.stepImage 0, .stepText 0, .stepImage 0]
    ⟨true, 1, [.working], [.working]⟩ (by decide)
  exact absurd h2 (by decide)

/-- Claim C1 (amended): any submission whose admission check runs while a
heavy request is registered is rejected, and the text path checks and
registers atomically, so text-only schedules register at most one heavy
request at all times; only an image submission's preparation window (between
its admission check and its job registration) can admit a second heavy
request. -/
theorem C1_theorem :
    (∀ (nT : Nat) (acts : List BotAction) (s : BotState),
        botRun (mkInit nT 0) acts = some s → heavyCount s ≤ 1) ∧
    (∀ (s : BotState) (i : Nat), busy s = true → s.texts.get? i = some .checking →
        botStep s (.stepText i) = some { s with texts := s.texts.set i .rejected }) ∧
    (∀ (s : BotState) (i : Nat), busy s = true → s.images.get? i = some .checking →
        botStep s (.stepImage i) = some { s with images := s.images.set i .rejected }) := by
  refine ⟨?_, ?_, ?_⟩
  · intro nT acts s hrun
    have h := botRun_textOnly acts (mkInit nT 0) s (by simp [mkInit]) (by simp [mkInit]) hrun
    simp only [heavyCount, h.2]
    split <;> omega
  · intro s i hb hg
    rw [List.get?_eq_getElem?] at hg
    simp [botStep, hg, hb]
  · intro s i hb hg
    rw [List.get?_eq_getElem?] at hg
    simp [botStep, hg, hb]

/-- Witness for C1: a concrete busy state rejects both a text and an image
check, and a concrete two-text schedule stays within one registered request. -/
theorem C1_witness :
    heavyCount ⟨true, 0, [.working, .rejected], []⟩ ≤ 1 ∧
    botStep ⟨true, 0, [.checking], []⟩ (.stepText 0) = some ⟨true, 0, [.rejected], []⟩ ∧
    botStep ⟨false, 1, [], [.checking]⟩ (.stepImage 0) = some ⟨false, 1, [], [.rejected]⟩ :=
  ⟨C1_theorem.1 2 [.stepText 0, .stepText 1] _ (by decide),
   C1_theorem.2.1 ⟨true, 0, [.checking], []⟩ 0 (by decide) (by decide),
   C1_theorem.2.2 ⟨false, 1, [], [.checking]⟩ 0 (by decide) (by decide)⟩

end SingleFlight

end Bot

namespace Bot
namespace MessageService

/-! ### Claim C6 -/

theorem splitOnNN_no_nl : ∀ (l : Str), (∀ c ∈ l, c ≠ '\n') → splitOnNN l = [l] := by
  intro l
  induction l with
  | nil => intro _; rfl
  | cons c rest ih =>
    intro h
    cases rest with
    | nil => rfl
    | cons c2 rest2 =>
      rw [splitOnNN]
      rw [if_neg (by rintro ⟨h1, -⟩; exact h c (by simp) h1)]
      rw [ih (fun d hd => h d (List.mem_cons_of_mem c hd))]

theorem splitSpace_no_sp : ∀ (l : Str), (∀ c ∈ l, c ≠ ' ') → splitSpace l = [l] := by
  intro l
  induction l with
  | nil => intro _; rfl
  | cons c rest ih =>
    intro h
    rw [splitSpace, if_neg (h c (by simp))]
    rw [ih (fun d hd => h d (List.mem_cons_of_mem c hd))]

theorem jsTrim_length_le (l : Str) : (jsTrim l).length ≤ l.length :=
  (jsTrim_infix_mono l).sublist.length_le

theorem packWords_bound (maxLen : Nat) :
    ∀ (ws : List Str) (cur : Str) (chunks : List Str),
      (∀ w ∈ ws, w.length + 1 ≤ maxLen) →
      cur.length ≤ maxLen →
      (∀ ch ∈ chunks, ch.length ≤ maxLen) →
      ∀ ch ∈ packWords maxLen ws cur chunks, ch.length ≤ maxLen := by
  intro ws
  induction ws with
  | nil =>
    intro cur chunks _ hcur hch ch hmem
    rw [packWords] at hmem
    split at hmem
    · exact hch ch hmem
    · rcases List.mem_append.mp hmem with h | h
      · exact hch ch h
      · rw [List.mem_singleton] at h
        subst h
        exact le_trans (jsTrim_length_le cur) hcur
  | cons w rest ih =>
    intro cur chunks hws hcur hch ch hmem
    have hw : w.length + 1 ≤ maxLen := hws w (by simp)
    have hws2 : ∀ x ∈ rest, x.length + 1 ≤ maxLen :=
      fun x hx => hws x (List.mem_cons_of_mem w hx)
    rw [packWords] at hmem
    split at hmem
    next hguard =>
      refine ih _ _ hws2 ?_ hch ch hmem
      split
      · omega
      · simp only [List.length_append, List.length_cons]
        omega
    next hguard =>
      refine ih _ _ hws2 (by omega) ?_ ch hmem
      intro ch2 hch2
      split at hch2
      · exact hch ch2 hch2
      · rcases List.mem_append.mp hch2 with h | h
        · exact hch ch2 h
        · rw [List.mem_singleton] at h
          subst h
          exact le_trans (jsTrim_length_le cur) hcur

theorem packParas_bound (maxLen : Nat) :
    ∀ (ps : List Str) (cur : Str) (chunks : List Str),
      (∀ p ∈ ps, maxLen < p.length → ∀ w ∈ splitSpace p, w.length + 1 ≤ maxLen) →
      cur.length ≤ maxLen →
      (∀ ch ∈ chunks, ch.length ≤ maxLen) →
      ∀ ch ∈ packParas maxLen ps cur chunks, ch.length ≤ maxLen := by
  intro ps
  induction ps with
  | nil =>
    intro cur chunks _ hcur hch ch hmem
    rw [packParas] at hmem
    split at hmem
    · exact hch ch hmem
    · rcases List.mem_append.mp hmem with h | h
      · exact hch ch h
      · rw [List.mem_singleton] at h
        subst h
        exact le_trans (jsTrim_length_le cur) hcur
  | cons p rest ih =>
    intro cur chunks hps hcur hch ch hmem
    have hps2 : ∀ q ∈ rest, maxLen < q.length → ∀ w ∈ splitSpace q, w.length + 1 ≤ maxLen :=
      fun q hq => hps q (List.mem_cons_of_mem p hq)
    have hch1 : ∀ ch2 ∈ (if cur.isEmpty then chunks else chunks ++ [jsTrim cur]),
        ch2.length ≤ maxLen := by
      intro ch2 hch2
      split at hch2
      · exact hch ch2 hch2
      · rcases List.mem_append.mp hch2 with h | h
        · exact hch ch2 h
        · rw [List.mem_singleton] at h
          subst h
          exact le_trans (jsTrim_length_le cur) hcur
    rw [packParas] at hmem
    split at hmem
    next hguard =>
      refine ih _ _ hps2 ?_ hch ch hmem
      split
      · omega
      · simp only [List.length_append, List.length_cons]
        omega
    next hguard =>
      simp only at hmem
      split at hmem
      next hbig =>
        refine ih _ _ hps2 (by simp) ?_ ch hmem
        exact packWords_bound maxLen (splitSpace p) [] _
          (hps p (by simp) hbig) (by simp) hch1
      next hbig =>
        exact ih _ _ hps2 (by omega) hch1 ch hmem

/-- Rejoin space-split words with single spaces (inverse of `splitSpace`). -/
def joinWords : List Str → Str
  | [] => []
  | w :: rest =>
    w ++ (match rest with
          | [] => []
          | _ :: _ => ' ' :: joinWords rest)

theorem splitSpace_ne_nil (l : Str) : splitSpace l ≠ [] := by
  cases l with
  | nil => simp [splitSpace]
  | cons c rest =>
    rw [splitSpace]
    split
    · simp
    · split <;> simp

theorem joinWords_one (w : Str) : joinWords [w] = w := by
  rw [joinWords]
  simp

theorem joinWords_cons (w : Str) (ws : List Str) (h : ws ≠ []) :
    joinWords (w :: ws) = w ++ ' ' :: joinWords ws := by
  cases ws with
  | nil => exact absurd rfl h
  | cons x rest => rw [joinWords]

theorem splitSpace_join : ∀ (l : Str), joinWords (splitSpace l) = l := by
  intro l
  induction l with
  | nil => rfl
  | cons c rest ih =>
    rw [splitSpace]
    split
    next hsp =>
      rw [joinWords_cons [] (splitSpace rest) (splitSpace_ne_nil rest), ih, hsp]
      rfl
    next hsp =>
      cases hs : splitSpace rest with
      | nil => exact absurd hs (splitSpace_ne_nil rest)
      | cons h t =>
        rw [hs] at ih
        cases t with
        | nil =>
          rw [joinWords_one] at ih
          rw [joinWords_one, ih]
        | cons h2 t2 =>
          rw [joinWords_cons h (h2 :: t2) (by simp)] at ih
          rw [joinWords_cons (c :: h) (h2 :: t2) (by simp)]
          rw [List.cons_append, ih]

/-- The total length contributed by appending each word after a space. -/
def sumLen : List Str → Nat
  | [] => 0
  | w :: rest => w.length + 1 + sumLen rest

theorem sumLen_eq_zero {ws : List Str} (h : sumLen ws = 0) : ws = [] := by
  cases ws with
  | nil => rfl
  | cons w rest => simp [sumLen] at h

/-- The running word chunk extended by the remaining words, exactly as the
word loop would extend it. -/
def glueWords (cur : Str) : List Str → Str
  | [] => cur
  | w :: rest => glueWords (cur ++ ' ' :: w) rest

theorem glueWords_join : ∀ (ws : List Str) (w : Str),
    glueWords w ws = joinWords (w :: ws) := by
  intro ws
  induction ws with
  | nil => intro w; rw [glueWords, joinWords_one]
  | cons x rest ih =>
    intro w
    rw [glueWords, ih (w ++ ' ' :: x), joinWords_cons w (x :: rest) (by simp)]
    cases rest with
    | nil => rw [joinWords_one, joinWords_one]
    | cons y t =>
      rw [joinWords_cons x (y :: t) (by simp), joinWords_cons (w ++ ' ' :: x) (y :: t) (by simp)]
      simp

theorem glueWords_length : ∀ (ws : List Str) (cur : Str),
    (glueWords cur ws).length = cur.length + sumLen ws := by
  intro ws
  induction ws with
  | nil => intro cur; simp [glueWords, sumLen]
  | cons w rest ih =>
    intro cur
    rw [glueWords, ih, sumLen]
    simp only [List.length_append, List.length_cons]
    omega

/-- A word is nonempty and has no whitespace at either end (so `trim` leaves
it, and chunks assembled from such words, unchanged). -/
def wordOk (w : Str) : Bool :=
  match w.head?, w.getLast? with
  | some c1, some c2 => !isJsSpace c1 && !isJsSpace c2
  | _, _ => false

theorem wordOk_ne_nil {w : Str} (h : wordOk w = true) : w ≠ [] := by
  intro hn
  subst hn
  simp [wordOk] at h

theorem jsTrim_of_wordOk {w : Str} (h : wordOk w = true) : jsTrim w = w := by
  unfold wordOk at h
  cases hh : w.head? with
  | none => rw [hh] at h; simp at h
  | some c1 =>
    cases hl : w.getLast? with
    | none => rw [hh, hl] at h; simp at h
    | some c2 =>
      rw [hh, hl] at h
      simp only [Bool.and_eq_true, Bool.not_eq_true'] at h
      apply jsTrim_eq_self
      · intro c hc
        rw [hh] at hc
        injection hc with he
        rw [← he]
        exact h.1
      · intro c hc
        rw [hl] at hc
        injection hc with he
        rw [← he]
        exact h.2

theorem wordOk_glue_step {cur w : Str} (hc : wordOk cur = true) (hw : wordOk w = true) :
    wordOk (cur ++ ' ' :: w) = true := by
  obtain ⟨a, cur2, rfl⟩ := List.exists_cons_of_ne_nil (wordOk_ne_nil hc)
  obtain ⟨b, w2, rfl⟩ := List.exists_cons_of_ne_nil (wordOk_ne_nil hw)
  cases hcl : (a :: cur2).getLast? with
  | none => simp at hcl
  | some d =>
    cases hwl : (b :: w2).getLast? with
    | none => simp at hwl
    | some c2 =>
      unfold wordOk at hc hw ⊢
      rw [List.head?_cons, hcl] at hc
      rw [List.head?_cons, hwl] at hw
      have h1 : ((a :: cur2) ++ ' ' :: b :: w2).head? = some a := by
        rw [List.cons_append, List.head?_cons]
      have h2 : ((a :: cur2) ++ ' ' :: b :: w2).getLast? = some c2 := by
        rw [List.getLast?_append, List.getLast?_cons_cons, hwl]
        rfl
      rw [h1, h2]
      simp only [Bool.and_eq_true, Bool.not_eq_true'] at hc hw ⊢
      exact ⟨hc.1, hw.2⟩

theorem packWords_fits (maxLen : Nat) :
    ∀ (ws : List Str) (cur : Str) (chunks : List Str),
      cur ≠ [] →
      cur.length + sumLen ws ≤ maxLen →
      packWords maxLen ws cur chunks = chunks ++ [jsTrim (glueWords cur ws)] := by
  intro ws
  induction ws with
  | nil =>
    intro cur chunks hne _
    rw [packWords, if_neg (by simpa using hne)]
    rfl
  | cons w rest ih =>
    intro cur chunks hne hlen
    rw [sumLen] at hlen
    rw [packWords, if_pos (by omega), if_neg (by simpa using hne)]
    rw [ih (cur ++ ' ' :: w) chunks (by simp)
      (by simp only [List.length_append, List.length_cons]; omega)]
    rw [glueWords]

theorem packWords_two (maxLen : Nat) :
    ∀ (ws : List Str) (cur : Str) (chunks : List Str),
      (∀ w ∈ ws, w.length + 1 ≤ maxLen ∧ wordOk w = true) →
      wordOk cur = true →
      cur.length ≤ maxLen →
      cur.length + sumLen ws = maxLen + 1 →
      ∃ p1 p2, packWords maxLen ws cur chunks = chunks ++ [p1, p2] ∧
        p1 ++ ' ' :: p2 = glueWords cur ws := by
  intro ws
  induction ws with
  | nil =>
    intro cur chunks _ _ hcl hlen
    rw [sumLen] at hlen
    exact absurd hlen (by omega)
  | cons w rest ih =>
    intro cur chunks hws hcok hcl hlen
    have hw := hws w (by simp)
    have hws2 : ∀ x ∈ rest, x.length + 1 ≤ maxLen ∧ wordOk x = true :=
      fun x hx => hws x (List.mem_cons_of_mem w hx)
    rw [sumLen] at hlen
    by_cases hg : cur.length + w.length + 1 ≤ maxLen
    · rw [packWords, if_pos hg, if_neg (by simpa using wordOk_ne_nil hcok)]
      obtain ⟨p1, p2, heq, hjoin⟩ := ih (cur ++ ' ' :: w) chunks hws2
        (wordOk_glue_step hcok hw.2)
        (by simp only [List.length_append, List.length_cons]; omega)
        (by simp only [List.length_append, List.length_cons]; omega)
      exact ⟨p1, p2, heq, by rw [hjoin, glueWords]⟩
    · have hrest : rest = [] := sumLen_eq_zero (by omega)
      subst hrest
      rw [packWords, if_neg hg, if_neg (by simpa using wordOk_ne_nil hcok)]
      rw [packWords, if_neg (by simpa using wordOk_ne_nil hw.2)]
      refine ⟨jsTrim cur, jsTrim w, by simp, ?_⟩
      rw [jsTrim_of_wordOk hcok, jsTrim_of_wordOk hw.2, glueWords, glueWords]

theorem getLast?_replicate (n : Nat) (a : Char) :
    (List.replicate n a).getLast? = if n = 0 then none else some a := by
  induction n with
  | zero => rfl
  | succ m ih =>
    rw [List.replicate_succ]
    cases m with
    | 
zero => rfl
    | succ m2 =>
      rw [List.replicate_succ, List.getLast?_cons_cons, ← List.replicate_succ, ih]
      simp

theorem wordOk_replicate (n : Nat) (a : Char) (hn : n ≠ 0) (ha : isJsSpace a = false) :
    wordOk (List.replicate n a) = true := by
  obtain ⟨m, rfl⟩ : ∃ m, n = m + 1 := ⟨n - 1, by omega⟩
  unfold wordOk
  rw [List.replicate_succ, List.head?_cons, ← List.replicate_succ,
    getLast?_replicate (m + 1) a]
  simp [ha]

theorem splitSpace_sep (B : Str) : ∀ (A : Str), (∀ c ∈ A, c ≠ ' ') →
    splitSpace (A ++ ' ' :: B) = A :: splitSpace B := by
  intro A
  induction A with
  | nil =>
    intro _
    rw [List.nil_append, splitSpace, if_pos rfl]
  | cons c A2 ih =>
    intro h
    rw [List.cons_append, splitSpace, if_neg (h c (by simp))]
    rw [ih (fun d hd => h d (List.mem_cons_of_mem c hd))]

/-- The property claimed: every page fits in `MAX_PAGE_LENGTH`; a text of
exactly 3500 characters yields one page; a 3501-character text with no
paragraph break yields exactly two pages split at a word boundary. -/
def C6Holds : Prop :=
  ∀ t : Str,
    (∀ page ∈ splitMessage t, page.length ≤ MAX_PAGE_LENGTH) ∧
    (t.length = 3500 → splitMessage t = [t]) ∧
    (t.length = 3501 → splitOnNN t = [t] →
      ∃ p1 p2, splitMessage t = [p1, p2] ∧ p1 ++ ' ' :: p2 = t)


theorem splitMessage_replicate_3501 :
    splitMessage (List.replicate 3501 'a') = [List.replicate 3501 'a'] := by
  have hlen : (List.replicate 3501 'a').length = 3501 := by
    rw [List.length_replicate]
  have hch : ∀ c ∈ List.replicate 3501 'a', c = 'a' :=
    fun c hc => List.eq_of_mem_replicate hc
  have hne : ¬((List.replicate 3501 'a').isEmpty = true) := by
    intro habs
    rw [List.isEmpty_iff] at habs
    rw [habs] at hlen
    exact absurd hlen (by decide)
  rw [splitMessage, if_neg (by rw [hlen]; norm_num [MAX_PAGE_LENGTH])]
  rw [splitOnNN_no_nl _ (fun c hc => by rw [hch c hc]; decide)]
  rw [packParas, if_neg (by rw [List.length_nil, hlen]; norm_num [MAX_PAGE_LENGTH])]
  simp only
  rw [if_pos List.isEmpty_nil]
  rw [if_pos (show MAX_PAGE_LENGTH < (List.replicate 3501 'a').length by
    rw [hlen]; norm_num [MAX_PAGE_LENGTH])]
  rw [splitSpace_no_sp _ (fun c hc => by rw [hch c hc]; decide)]
  rw [packWords, if_neg (by rw [List.length_nil, hlen]; norm_num [MAX_PAGE_LENGTH])]
  rw [if_pos List.isEmpty_nil]
  rw [packWords, if_neg hne]
  rw [jsTrim_of_wordOk (wordOk_replicate 3501 'a' (by norm_num) (by decide))]
  rw [List.nil_append]
  rw [packParas, if_pos List.isEmpty_nil]

/-- Claim C6: every page of `splitMessage` is at most 3500 characters, and a
3501-character input with no paragraph break yields exactly two pages split
at a word boundary — REFUTED.  A 3501-character input consisting of a single
space-free word is returned as ONE page of 3501 characters: the word loop
assigns an oversized word to `wordChunk` whole, so the page bound and the
two-page split both fail. -/
theorem C6_counterexample : ¬ C6Holds := by
  intro h
  have h1 := (h (List.replicate 3501 'a')).1 (List.replicate 3501 'a')
    (by rw [splitMessage_replicate_3501]; exact List.mem_singleton.mpr rfl)
  rw [List.length_replicate] at h1
  norm_num [MAX_PAGE_LENGTH] at h1

/-- Claim C6 (amended): (1) every page of `splitMessage` is at most
`MAX_PAGE_LENGTH` characters provided every paragraph longer than the limit
splits into words of length at most `MAX_PAGE_LENGTH - 1`; (2) a text of
exactly 3500 characters yields exactly one page (unconditionally); (3) a
3501-character text with no paragraph break whose space-split words are
nonempty, bounded by `MAX_PAGE_LENGTH - 1`, and free of edge whitespace
yields exactly two pages that rejoin with a single space to the original
text (the split is at a word boundary, never mid-word). -/
theorem C6_theorem :
    (∀ t : Str,
      (∀ p ∈ splitOnNN t, MAX_PAGE_LENGTH < p.length →
        ∀ w ∈ splitSpace p, w.length + 1 ≤ MAX_PAGE_LENGTH) →
      ∀ page ∈ splitMessage t, page.length ≤ MAX_PAGE_LENGTH) ∧
    (∀ t : Str, t.length = 3500 → splitMessage t = [t]) ∧
    (∀ t : Str, t.length = 3501 → splitOnNN t = [t] →
      (∀ w ∈ splitSpace t, w.length + 1 ≤ MAX_PAGE_LENGTH ∧ wordOk w = true) →
      ∃ p1 p2, splitMessage t = [p1, p2] ∧ p1 ++ ' ' :: p2 = t) := by
  refine ⟨?_, ?_, ?_⟩
  · intro t hp page hpage
    rw [splitMessage] at hpage
    split at hpage
    next hle =>
      rw [List.mem_singleton] at hpage
      subst hpage
      exact hle
    next hle =>
      exact packParas_bound MAX_PAGE_LENGTH (splitOnNN t) [] [] hp (by simp) (by simp)
        page hpage
  · intro t hlen
    rw [splitMessage, if_pos (by rw [hlen]; norm_num [MAX_PAGE_LENGTH])]
  · intro t hlen hnn hw
    rw [splitMessage, if_neg (by rw [hlen]; norm_num [MAX_PAGE_LENGTH])]
    rw [hnn]
    rw [packParas, if_neg (by rw [List.length_nil, hlen]; norm_num [MAX_PAGE_LENGTH])]
    simp only
    rw [if_pos List.isEmpty_nil]
    rw [if_pos (show MAX_PAGE_LENGTH < t.length by rw [hlen]; norm_num [MAX_PAGE_LENGTH])]
    cases hs : splitSpace t with
    | nil => exact absurd hs (splitSpace_ne_nil t)
    | cons w1 ws =>
      have hw1 := hw w1 (by rw [hs]; exact List.mem_cons_self w1 ws)
      have hws2 : ∀ x ∈ ws, x.length + 1 ≤ MAX_PAGE_LENGTH ∧ wordOk x = true :=
        fun x hx => hw x (by rw [hs]; exact List.mem_cons_of_mem w1 hx)
      have hglue : glueWords w1 ws = t := by
        rw [glueWords_join ws w1, ← hs, splitSpace_join]
      have hlen2 : w1.length + sumLen ws = MAX_PAGE_LENGTH + 1 := by
        have hgl := glueWords_length ws w1
        rw [hglue, hlen] at hgl
        have hmx : MAX_PAGE_LENGTH = 3500 := rfl
        omega
      rw [packWords, if_pos (by rw [List.length_nil]; omega)]
      rw [if_pos List.isEmpty_nil]
      obtain ⟨p1, p2, heq, hjoin⟩ := packWords_two MAX_PAGE_LENGTH ws w1 [] hws2 hw1.2
        (by omega) hlen2
      refine ⟨p1, p2, ?_, ?_⟩
      · rw [heq, packParas, if_pos List.isEmpty_nil, List.nil_append]
      · rw [hjoin, hglue]

/-- Witness for C6 (amended): a short text, a 3500-character text, and a
3501-character two-word text. -/
theorem C6_witness :
    (∀ page ∈ splitMessage ['h', 'i'], page.length ≤ MAX_PAGE_LENGTH) ∧
    splitMessage (List.replicate 3500 'a') = [List.replicate 3500 'a'] ∧
    (∃ p1 p2,
      splitMessage (List.replicate 1750 'a' ++ ' ' :: List.replicate 1750 'b') = [p1, p2] ∧
      p1 ++ ' ' :: p2 = List.replicate 1750 'a' ++ ' ' :: List.replicate 1750 'b') := by
  obtain ⟨h1, h2, h3⟩ := C6_theorem
  have hnn : splitOnNN (List.replicate 1750 'a' ++ ' ' :: List.replicate 1750 'b') =
      [List.replicate 1750 'a' ++ ' ' :: List.replicate 1750 'b'] := by
    apply splitOnNN_no_nl
    intro c hc
    rcases List.mem_append.mp hc with h | h
    · rw [List.eq_of_mem_replicate h]; decide
    · rcases List.mem_cons.mp h with h | h
      · rw [h]; decide
      · rw [List.eq_of_mem_replicate h]; decide
  have hss : splitSpace (List.replicate 1750 'a' ++ ' ' :: List.replicate 1750 'b') =
      [List.replicate 1750 'a', List.replicate 1750 'b'] := by
    rw [splitSpace_sep _ _ (fun c hc => by rw [List.eq_of_mem_replicate hc]; decide)]
    rw [splitSpace_no_sp _ (fun c hc => by rw [List.eq_of_mem_replicate hc]; decide)]
  refine ⟨h1 ['h', 'i'] (by decide), h2 _ (by rw [List.length_replicate]), h3 _ ?_ hnn ?_⟩
  · simp only [List.length_append, List.length_cons, List.length_replicate]
  · intro w hwmem
    rw [hss] at hwmem
    rcases List.mem_cons.mp hwmem with h | h
    · subst h
      refine ⟨?_, wordOk_replicate 1750 'a' (by norm_num) (by decide)⟩
      rw [List.length_replicate]
      norm_num [MAX_PAGE_LENGTH]
    · rw [List.mem_singleton] at h
      subst h
      refine ⟨?_, wordOk_replicate 1750 'b' (by norm_num) (by decide)⟩
      rw [List.length_replicate]
      norm_num [MAX_PAGE_LENGTH]

/-! ### Claim C5 -/

/-- Rejoin paragraphs (or pages) with the blank-line separator
(inverse of `splitOnNN`). -/
def joinParas : List Str → Str
  | [] => []
  | p :: rest =>
    p ++ (match rest with
          | [] => []
          | _ :: _ => '\n' :: '\n' :: joinParas rest)

theorem joinParas_one (p : Str) : joinParas [p] = p := by
  rw [joinParas]
  simp

theorem joinParas_cons (p : Str) (ps : List Str) (h : ps ≠ []) :
    joinParas (p :: ps) = p ++ '\n' :: '\n' :: joinParas ps := by
  cases ps with
  | nil => exact absurd rfl h
  | cons x rest => rw [joinParas]

theorem splitOnNN_ne_nil (l : Str) : splitOnNN l ≠ [] := by
  cases l with
  | nil => simp [splitOnNN]
  | cons c rest =>
    cases rest with
    | nil => simp [splitOnNN]
    | cons c2 rest2 =>
      rw [splitOnNN]
      split
      · simp
      · split <;> simp

theorem joinParas_cons_head (c : Char) (h : Str) (t : List Str) :
    joinParas ((c :: h) :: t) = c :: joinParas (h :: t) := by
  cases t with
  | nil => rw [joinParas_one, joinParas_one]
  | cons x rest =>
    rw [joinParas_cons (c :: h) (x :: rest) (by simp),
      joinParas_cons h (x :: rest) (by simp)]
    rw [List.cons_append]

theorem splitOnNN_join : ∀ (l : Str), joinParas (splitOnNN l) = l := by
  intro l
  induction l using splitOnNN.induct with
  | case1 => rw [splitOnNN, joinParas_one]
  | case2 c => rw [splitOnNN, joinParas_one]
  | case3 c1 c2 rest hnn ih =>
    rw [splitOnNN, if_pos hnn]
    rw [joinParas_cons [] (splitOnNN rest) (splitOnNN_ne_nil rest), ih]
    rw [List.nil_append, hnn.1, hnn.2]
  | case4 c1 c2 rest hnn heq ih =>
    exact absurd heq (splitOnNN_ne_nil (c2 :: rest))
  | case5 c1 c2 rest hnn h t heq ih =>
    rw [splitOnNN, if_neg hnn, heq]
    rw [heq] at ih
    rw [joinParas_cons_head c1 h t, ih]

theorem splitOnNN_sep (B : Str) : ∀ (A : Str), (∀ c ∈ A, c ≠ '\n') →
    splitOnNN (A ++ '\n' :: '\n' :: B) = A :: splitOnNN B := by
  intro A
  induction A with
  | nil =>
    intro _
    rw [List.nil_append, splitOnNN, if_pos ⟨rfl, rfl⟩]
  | cons a A2 ih =>
    intro h
    rw [List.cons_append]
    cases hA2 : A2 ++ '\n' :: '\n' :: B with
    | nil => exact absurd hA2 (by simp)
    | cons d rest2 =>
      rw [splitOnNN, if_neg (fun hc => h a (by simp) hc.1)]
      rw [← hA2, ih (fun c hc => h c (List.mem_cons_of_mem a hc))]

theorem wordOk_glueNN {cur w : Str} (hc : wordOk cur = true) (hw : wordOk w = true) :
    wordOk (cur ++ '\n' :: '\n' :: w) = true := by
  obtain ⟨a, cur2, rfl⟩ := List.exists_cons_of_ne_nil (wordOk_ne_nil hc)
  obtain ⟨b, w2, rfl⟩ := List.exists_cons_of_ne_nil (wordOk_ne_nil hw)
  cases hcl : (a :: cur2).getLast? with
  | none => simp at hcl
  | some d =>
    cases hwl : (b :: w2).getLast? with
    | none => simp at hwl
    | some c2 =>
      unfold wordOk at hc hw ⊢
      rw [List.head?_cons, hcl] at hc
      rw [List.head?_cons, hwl] at hw
      have h1 : ((a :: cur2) ++ '\n' :: '\n' :: b :: w2).head? = some a := by
        rw [List.cons_append, List.head?_cons]
      have h2 : ((a :: cur2) ++ '\n' :: '\n' :: b :: w2).getLast? = some c2 := by
        rw [List.getLast?_append, List.getLast?_cons_cons, List.getLast?_cons_cons, hwl]
        rfl
      rw [h1, h2]
      simp only [Bool.and_eq_true, Bool.not_eq_true'] at hc hw ⊢
      exact ⟨hc.1, hw.2⟩

theorem wordOk_isEmpty_false {w : Str} (h : wordOk w = true) : w.isEmpty = false := by
  obtain ⟨a, w2, rfl⟩ := List.exists_cons_of_ne_nil (wordOk_ne_nil h)
  rfl

theorem joinParas_merge (cur p : Str) (rest : List Str) :
    joinParas ((cur ++ '\n' :: '\n' :: p) :: rest) = joinParas (cur :: p :: rest) := by
  cases rest with
  | nil =>
    rw [joinParas_one, joinParas_cons cur [p] (by simp), joinParas_one]
  | cons r rs =>
    rw [joinParas_cons _ (r :: rs) (by simp),
      joinParas_cons cur (p :: r :: rs) (by simp),
      joinParas_cons p (r :: rs) (by simp)]
    simp

theorem packParas_join (maxLen : Nat) :
    ∀ (ps : List Str) (cur : Str) (chunks : List Str),
      (∀ p ∈ ps, wordOk p = true ∧ p.length ≤ maxLen) →
      (cur.isEmpty = true ∨ wordOk cur = true) →
      ∃ gs, packParas maxLen ps cur chunks = chunks ++ gs ∧
        joinParas gs = joinParas ((if cur.isEmpty then [] else [cur]) ++ ps) ∧
        (gs = [] → cur.isEmpty = true ∧ ps = []) := by
  intro ps
  induction ps with
  | nil =>
    intro cur chunks _ hcur
    rw [packParas]
    by_cases hce : cur.isEmpty = true
    · refine ⟨[], by rw [if_pos hce]; simp, ?_, fun _ => ⟨hce, rfl⟩⟩
      rw [if_pos hce]
      rfl
    · have hok : wordOk cur = true := hcur.resolve_left hce
      refine ⟨[cur], ?_, ?_, by simp⟩
      · rw [if_neg hce, jsTrim_of_wordOk hok]
      · rw [if_neg hce, List.append_nil]
  | cons p rest ih =>
    intro cur chunks h hcur
    have hp := h p (List.mem_cons_self p rest)
    have hrest : ∀ q ∈ rest, wordOk q = true ∧ q.length ≤ maxLen :=
      fun q hq => h q (List.mem_cons_of_mem p hq)
    rw [packParas]
    split
    next hguard =>
      by_cases hce : cur.isEmpty = true
      · rw [if_pos hce]
        obtain ⟨gs, h1, h2, h3⟩ := ih p chunks hrest (Or.inr hp.1)
        refine ⟨gs, h1, ?_, ?_⟩
        · rw [h2, if_neg (by rw [wordOk_isEmpty_false hp.1]; simp), if_pos hce]
          rw [List.nil_append, List.singleton_append]
        · intro hgs
          exact absurd (h3 hgs).1 (by rw [wordOk_isEmpty_false hp.1]; simp)
      · rw [if_neg hce]
        have hok : wordOk cur = true := hcur.resolve_left hce
        have hok2 : wordOk (cur ++ '\n' :: '\n' :: p) = true := wordOk_glueNN hok hp.1
        obtain ⟨gs, h1, h2, h3⟩ := ih (cur ++ '\n' :: '\n' :: p) chunks hrest (Or.inr hok2)
        refine ⟨gs, h1, ?_, ?_⟩
        · rw [h2, if_neg (by rw [wordOk_isEmpty_false hok2]; simp), if_neg hce]
          rw [List.singleton_append, List.singleton_append, joinParas_merge]
        · intro hgs
          exact absurd (h3 hgs).1 (by rw [wordOk_isEmpty_false hok2]; simp)
    next hguard =>
      simp only
      rw [if_neg (not_lt.mpr hp.2)]
      by_cases hce : cur.isEmpty = true
      · rw [if_pos hce]
        obtain ⟨gs, h1, h2, h3⟩ := ih p chunks hrest (Or.inr hp.1)
        have hgs_ne : gs ≠ [] := by
          intro hgs
          exact absurd (h3 hgs).1 (by rw [wordOk_isEmpty_false hp.1]; simp)
        refine ⟨gs, h1, ?_, fun hgs => absurd hgs hgs_ne⟩
        rw [h2, if_neg (by rw [wordOk_isEmpty_false hp.1]; simp), List.singleton_append,
          if_pos hce, List.nil_append]
      · have hok : wordOk cur = true := hcur.resolve_left hce
        rw [if_neg hce, jsTrim_of_wordOk hok]
        obtain ⟨gs, h1, h2, h3⟩ := ih p (chunks ++ [cur]) hrest (Or.inr hp.1)
        have hgs_ne : gs ≠ [] := by
          intro hgs
          exact absurd (h3 hgs).1 (by rw [wordOk_isEmpty_false hp.1]; simp)
        have h2p : joinParas gs = joinParas (p :: rest) := by
          rw [h2, if_neg (by rw [wordOk_isEmpty_false hp.1]; simp), List.singleton_append]
        refine ⟨cur :: gs, ?_, ?_, by simp⟩
        · rw [h1]
          simp
        · cases hgs : gs with
          | nil => exact absurd hgs hgs_ne
          | cons g gt =>
            rw [joinParas_cons cur (g :: gt) (by simp), ← hgs, h2p,
              if_neg hce, List.singleton_append,
              joinParas_cons cur (p :: rest) (by simp)]

theorem head?_replicate (n : Nat) (a : Char) :
    (List.replicate n a).head? = if n = 0 then none else some a := by
  cases n with
  | zero => rfl
  | succ m => rw [List.replicate_succ, List.head?_cons, if_neg (Nat.succ_ne_zero m)]

theorem noLineSpark_of_no_spark : ∀ (l : Str) (b : Bool),
    (∀ c ∈ l, c ≠ '✨') → noLineSpark b l = true := by
  intro l
  induction l with
  | nil => intro b _; rfl
  | cons c rest ih =>
    intro b h
    rw [noLineSpark]
    simp only [Bool.and_eq_true]
    refine ⟨?_, ih _ (fun d hd => h d (List.mem_cons_of_mem c hd))⟩
    simp [h c (List.mem_cons_self c rest)]

theorem noTriple_of_count {l : Str} (h : l.count '\n' ≤ 2) : NoTriple l := by
  intro hinf
  have hle := hinf.sublist.count_le '\n'
  have h3 : (['\n', '\n', '\n'] : Str).count '\n' = 3 := by decide
  rw [h3] at hle
  omega

/-- The C5 counterexample text: a 2999-character paragraph, a paragraph
break, then a second paragraph starting with a space. -/
def cexC5 : Str :=
  List.replicate 2999 'x' ++ '\n' :: '\n' :: ' ' :: List.replicate 600 'y'

theorem cexC5_head : cexC5.head? = some 'x' := by
  rw [cexC5, show (2999 : Nat) = 2998 + 1 from rfl, List.replicate_succ,
    List.cons_append, List.head?_cons]

theorem cexC5_last : cexC5.getLast? = some 'y' := by
  have h600 : List.replicate 600 'y' = List.replicate 599 'y' ++ ['y'] := by
    rw [← List.replicate_succ']
  have hsh : cexC5 =
      (List.replicate 2999 'x' ++ '\n' :: '\n' :: ' ' :: List.replicate 599 'y') ++ ['y'] := by
    rw [cexC5, h600]
    simp only [List.append_assoc, List.cons_append]
  rw [hsh, List.getLast?_concat]

theorem cexC5_mem : ∀ c ∈ cexC5, c = 'x' ∨ c = '\n' ∨ c = ' ' ∨ c = 'y' := by
  intro c hc
  rw [cexC5] at hc
  rcases List.mem_append.mp hc with h | h
  · exact Or.inl (List.eq_of_mem_replicate h)
  · rcases List.mem_cons.mp h with h | h
    · exact Or.inr (Or.inl h)
    · rcases List.mem_cons.mp h with h | h
      · exact Or.inr (Or.inl h)
      · rcases List.mem_cons.mp h with h | h
        · exact Or.inr (Or.inr (Or.inl h))
        · exact Or.inr (Or.inr (Or.inr (List.eq_of_mem_replicate h)))

theorem cexC5_len : cexC5.length = 3602 := by
  rw [cexC5]
  simp only [List.length_append, List.length_cons, List.length_replicate]

theorem cexC5_noTriple : NoTriple cexC5 := by
  apply noTriple_of_count
  rw [cexC5]
  simp only [List.count_append, List.count_cons, List.count_replicate]
  decide

theorem cexC5_format : formatResponse cexC5 = cexC5 := by
  have hhead : ∀ c, cexC5.head? = some c → isJsSpace c = false := by
    intro c hc
    rw [cexC5_head] at hc
    injection hc with he
    rw [← he]
    decide
  have hlast : ∀ c, cexC5.getLast? = some c → isJsSpace c = false := by
    intro c hc
    rw [cexC5_last] at hc
    injection hc with he
    rw [← he]
    decide
  have hns : noLineSpark true cexC5 = true :=
    noLineSpark_of_no_spark cexC5 true (fun c hc => by
      rcases cexC5_mem c hc with h | h | h | h <;> rw [h] <;> decide)
  have hfil : cexC5.filter (fun c => c ≠ '━') = cexC5 := by
    rw [List.filter_eq_self]
    intro c hc
    rcases cexC5_mem c hc with h | h | h | h <;> rw [h] <;> decide
  rw [formatResponse, stripDecor, jsTrim_eq_self cexC5 hhead hlast,
    removeSparkles_id cexC5 true hns, hfil, collapse_id cexC5 cexC5_noTriple,
    jsTrim_eq_self cexC5 hhead hlast]

theorem jsTrim_sp_replicate :
    jsTrim (' ' :: List.replicate 600 'y') = List.replicate 600 'y' := by
  have hh : ∀ c, (List.replicate 600 'y').head? = some c → isJsSpace c = false := by
    intro c hc
    rw [head?_replicate, if_neg (by norm_num : (600 : Nat) ≠ 0)] at hc
    injection hc with he
    rw [← he]
    decide
  unfold jsTrim
  rw [List.dropWhile_cons_of_pos (by decide)]
  rw [dropWhile_eq_self_of_head _ hh]
  rw [List.reverse_replicate]
  rw [dropWhile_eq_self_of_head _ hh]
  rw [List.reverse_replicate]

theorem cexC5_split :
    splitMessage cexC5 = [List.replicate 2999 'x', List.replicate 600 'y'] := by
  have hAlen : (List.replicate 2999 'x').length = 2999 := by rw [List.length_replicate]
  have hAok : wordOk (List.replicate 2999 'x') = true :=
    wordOk_replicate 2999 'x' (by norm_num) (by decide)
  have hP2len : (' ' :: List.replicate 600 'y').length = 601 := by
    rw [List.length_cons, List.length_replicate]
  rw [splitMessage, if_neg (by rw [cexC5_len]; norm_num [MAX_PAGE_LENGTH])]
  rw [show cexC5 = List.replicate 2999 'x' ++ '\n' :: '\n' :: (' ' :: List.replicate 600 'y')
    from rfl]
  rw [splitOnNN_sep _ _ (fun c hc => by rw [List.eq_of_mem_replicate hc]; decide)]
  rw [splitOnNN_no_nl _ (fun c hc => by
    rcases List.mem_cons.mp hc with h | h
    · rw [h]; decide
    · rw [List.eq_of_mem_replicate h]; decide)]
  rw [packParas, if_pos (by rw [List.length_nil, hAlen]; norm_num [MAX_PAGE_LENGTH])]
  rw [if_pos List.isEmpty_nil]
  rw [packParas, if_neg (by rw [hAlen, hP2len]; norm_num [MAX_PAGE_LENGTH])]
  simp only
  rw [if_neg (by rw [hP2len]; norm_num [MAX_PAGE_LENGTH])]
  rw [if_neg (by rw [wordOk_isEmpty_false hAok]; simp)]
  rw [packParas, if_neg (by rw [List.isEmpty_cons]; decide)]
  rw [jsTrim_of_wordOk hAok, jsTrim_sp_replicate, List.nil_append, List.singleton_append]

/-- All candidate reconstructions of a page list: at each page join either
nothing is re-inserted (a word split) or the blank-line separator is
re-inserted (a paragraph join). -/
def reconsOf : List Str → List Str
  | [] => [[]]
  | [p] => [p]
  | p :: q :: rest =>
    ((reconsOf (q :: rest)).map (fun r => p ++ r)) ++
    ((reconsOf (q :: rest)).map (fun r => p ++ '\n' :: '\n' :: r))

theorem reconsOf_pair (A B : Str) :
    reconsOf [A, B] = [A ++ B, A ++ '\n' :: '\n' :: B] := by
  rw [reconsOf, reconsOf]
  simp only [List.map_cons, List.map_nil, List.singleton_append]

/-- The property claimed: for a text free of page-breaking artifacts (it is
a fixed point of `formatResponse`), some choice of per-join separators —
nothing at word splits, the blank line at paragraph joins — rebuilds the
formatted text from its pages. -/
def C5Holds : Prop :=
  ∀ t : Str, formatResponse t = t →
    formatResponse t ∈ reconsOf (splitMessage (formatResponse t))

/-- Claim C5: joining the pages of `splitMessage (formatResponse text)` —
word-split pages without separators, paragraph joins with the blank line —
reconstructs `formatResponse text` for inputs free of page-breaking
artifacts — REFUTED.  A paragraph with a leading space is trimmed when its
page is pushed, so every candidate reconstruction is shorter than the
original: no choice of separators rebuilds it. -/
theorem C5_counterexample : ¬ C5Holds := by
  intro h
  have hm := h cexC5 cexC5_format
  rw [cexC5_format, cexC5_split, reconsOf_pair] at hm
  have hlen1 : (List.replicate 2999 'x' ++ List.replicate 600 'y').length = 3599 := by
    simp only [List.length_append, List.length_replicate]
  have hlen2 :
      (List.replicate 2999 'x' ++ '\n' :: '\n' :: List.replicate 600 'y').length = 3601 := by
    simp only [List.length_append, List.length_cons, List.length_replicate]
  rcases List.mem_cons.mp hm with he | hm2
  · have hl := congrArg List.length he
    rw [cexC5_len, hlen1] at hl
    norm_num at hl
  · rw [List.mem_singleton] at hm2
    have hl := congrArg List.length hm2
    rw [cexC5_len, hlen2] at hl
    norm_num at hl

/-- Claim C5 (amended): when every paragraph of the formatted text is
nonempty, free of edge whitespace, and no longer than `MAX_PAGE_LENGTH`
(so no page is word-split and no trim loses characters), rejoining the
pages of `splitMessage (formatResponse text)` with the blank-line separator
reconstructs `formatResponse text` exactly. -/
theorem C5_theorem (t : Str)
    (h : ∀ p ∈ splitOnNN (formatResponse t),
      wordOk p = true ∧ p.length ≤ MAX_PAGE_LENGTH) :
    joinParas (splitMessage (formatResponse t)) = formatResponse t := by
  rw [splitMessage]
  split
  next => exact joinParas_one _
  next =>
    obtain ⟨gs, hpack, hjoin, _⟩ :=
      packParas_join MAX_PAGE_LENGTH (splitOnNN (formatResponse t)) [] [] h (Or.inl rfl)
    rw [hpack, List.nil_append, hjoin, if_pos List.isEmpty_nil, List.nil_append]
    exact splitOnNN_join (formatResponse t)

/-- Witness for C5 (amended): the two-character text `"ok"`. -/
theorem C5_witness :
    joinParas (splitMessage (formatResponse ['o', 'k'])) = formatResponse ['o', 'k'] := by
  apply C5_theorem
  rw [formatResponse_id ['o', 'k'] (by decide)]
  decide

end MessageService
end Bot
